import Mathlib

/-!
Verification development for the enqueuer subsystem of
`src/keras_extensions/utils/data_utils.py` (classes `OrderedEnqueuer` and
`GeneratorEnqueuer`).

The Python code is embedded shallowly as an executable small-step transition
system.  One state `St` holds the scheduling thread's program point inside
`OrderedEnqueuer._run` (`RPhase`), the consumer's program point inside
`OrderedEnqueuer.get` (`CPhase`), the bounded FIFO queue of futures, and
ghost bookkeeping (submitted tasks, delivered tasks, the event trace).
A schedule — an arbitrary list of `Act` actions — interleaves the scheduling
thread, the consumer, asynchronous pool completions, and an external `stop()`
call; theorems quantify over all schedules, which covers every interleaving
and every order of task completion.

Machine integers play no role in the claims, so indices and epochs are `Nat`.
Blocking primitives (`queue.put`/`queue.get` on a full/empty queue, resolving
an unfinished `AsyncResult`) are embedded as guarded steps that leave the
state unchanged while their wait condition holds; a step that cannot proceed
is a stutter, exactly as a blocked Python thread makes no observable progress.
-/

set_option maxRecDepth 100000

namespace DU

/-- A task submitted to the pool: the `(e_idx, b_idx)` pair that
`OrderedEnqueuer._run` passes to `get_index(uuid, e_idx, b_idx)`. -/
structure Task where
  epoch : Nat
  idx : Nat
deriving DecidableEq

/-- Result of producing one work item (`sequence.get_batch`): a batch value,
the `None` skip sentinel that `get()` silently drops, or a raised exception
(identified by a number). -/
inductive PResult where
  | ok (v : Nat)
  | skip
  | fail (e : Nat)
deriving DecidableEq

/-- A future (`AsyncResult`) occupying a queue slot: the task it computes and
whether the pool worker has finished it.  `Future.get()` blocks until
`done` is true; the value it then returns is fixed by the task, not by the
completion time. -/
structure Fut where
  task : Task
  done : Bool
deriving DecidableEq

/-- Static configuration of one `OrderedEnqueuer` run.
`perm e` is the contents of the local `sequence` list of `_run` during epoch
`e`: `list(range(len(self.sequence)))`, shuffled in place at the top of the
epoch when `shuffle` is enabled (the shuffle's outcome is external
randomness, so it enters the model as data).  With `shuffle=False`,
`perm e = List.range len` for every `e`.  `produce e b` is what resolving the
future of task `(e, b)` yields. -/
structure Config where
  e0 : Nat
  maxEpoch : Option Nat
  cap : Nat
  workers : Nat
  perm : Nat → List Nat
  produce : Nat → Nat → PResult

/-- Program point of the scheduling thread inside `OrderedEnqueuer._run`. -/
inductive RPhase where
  | sendInit                          -- the initial `self._send_sequence()`
  | checkEpoch                        -- top of `while True`: the max_epoch test
  | submitting (rest : List Nat)      -- `for b_idx in sequence`: the stop-signal check
  | putting (b : Nat) (rest : List Nat)  -- inside `self.queue.put(...)` (blocks when full)
  | draining                          -- `while not self.queue.empty(): pass`
  | epochEndCall                      -- `self.sequence.on_epoch_end()`
  | sendSeq                           -- the per-epoch `self._send_sequence()`
  | incEpoch                          -- `self.e_idx += 1`
  | exited                            -- `break` because `e_idx >= max_epoch`
  | stopped                           -- `return` because the stop signal was set
deriving DecidableEq

/-- Program point of the consumer inside the `OrderedEnqueuer.get` generator. -/
inductive CPhase where
  | loopTop                        -- `while self.is_running()`
  | dequeuing                      -- inside `self.queue.get(block=True)` (blocks when empty)
  | resolving (f : Fut)            -- inside `.get()` on the future (blocks until done)
  | ended                          -- the while condition was false: generator exhausted
  | stopping (t : Task) (e : Nat)  -- except-branch: inside `self.stop()`, blocked in `run_thread.join(None)`
  | failed (t : Task) (e : Nat)    -- `stop()` returned and `raise StopIteration(e)` ran: terminated with the failure
deriving DecidableEq

/-- Observable events, recorded in submission/delivery order. -/
inductive Event where
  | publish (e : Nat)        -- `_send_sequence()` ran (at internal epoch `e`)
  | submit (t : Task)        -- `queue.put` of task `t`'s future completed
  | deliver (t : Task)       -- the consumer resolved task `t`'s future
  | epochEnd (e : Nat)       -- `sequence.on_epoch_end()` ran at the end of epoch `e`
  | inc (e : Nat)            -- `self.e_idx += 1` set the epoch counter to `e`
deriving DecidableEq

/-- The whole system state, plus ghost bookkeeping. -/
structure St where
  rp : RPhase
  cp : CPhase
  queue : List Fut          -- the bounded `queue.Queue`, head = oldest
  eIdx : Nat                -- `self.e_idx`
  stopSignal : Bool         -- `self.stop_signal.is_set()` (the Event exists once started)
  yielded : List Nat        -- values yielded by `get()` so far, in order
  delivered : List Task     -- ghost: tasks whose futures the consumer fully resolved
  submitted : List Task     -- ghost: tasks put into the queue, in order
  trace : List Event        -- ghost: event trace
  stopCount : Nat           -- ghost: completed `stop()` calls (external or from `get`)
  getStopCount : Nat        -- ghost: `stop()` calls made by `get()`'s except-branch
  publishCount : Nat        -- ghost: number of `_send_sequence()` calls
  epochEndCount : Nat       -- ghost: number of `on_epoch_end()` calls
deriving DecidableEq

/-- Interleaving actions. -/
inductive Act where
  | prod               -- one micro-step of the scheduling thread (`_run`)
  | complete (i : Nat) -- the pool finishes the future at queue position `i`
  | completeHeld       -- the pool finishes the future the consumer holds
  | cons               -- one micro-step of the consumer (`get`)
  | extStop            -- an external `stop()` call by the consumer thread
deriving DecidableEq

/-- The run thread is alive (its target function has not returned). -/
def runThreadAlive (st : St) : Bool :=
  match st.rp with
  | .exited => false
  | .stopped => false
  | _ => true

/-- One micro-step of the scheduling thread `OrderedEnqueuer._run`
(lines 228-253 of `data_utils.py`). -/
def stepProd (cfg : Config) (st : St) : St :=
  match st.rp with
  | .sendInit =>
      -- `self._send_sequence()  # Share the initial sequence`
      { st with rp := .checkEpoch, publishCount := st.publishCount + 1,
                trace := st.trace ++ [.publish st.eIdx] }
  | .checkEpoch =>
      -- `if self.max_epoch is not None: if self.e_idx >= self.max_epoch: break`
      match cfg.maxEpoch with
      | some m =>
          if st.eIdx ≥ m then { st with rp := .exited }
          else { st with rp := .submitting (cfg.perm st.eIdx) }
      | none => { st with rp := .submitting (cfg.perm st.eIdx) }
  | .submitting [] => { st with rp := .draining }
  | .submitting (b :: rest) =>
      -- `if self.stop_signal.is_set(): return`
      if st.stopSignal then { st with rp := .stopped }
      else { st with rp := .putting b rest }
  | .putting b rest =>
      -- `self.queue.put(self.executor.apply_async(get_index, ...), block=True)`
      if st.queue.length < cfg.cap then
        { st with queue := st.queue ++ [⟨⟨st.eIdx, b⟩, false⟩],
                  submitted := st.submitted ++ [⟨st.eIdx, b⟩],
                  trace := st.trace ++ [.submit ⟨st.eIdx, b⟩],
                  rp := .submitting rest }
      else st
  | .draining =>
      -- `while not self.queue.empty(): pass`
      if st.queue.isEmpty then { st with rp := .epochEndCall } else st
  | .epochEndCall =>
      -- `self.sequence.on_epoch_end()`
      { st with rp := .sendSeq, epochEndCount := st.epochEndCount + 1,
                trace := st.trace ++ [.epochEnd st.eIdx] }
  | .sendSeq =>
      -- `self._send_sequence()`
      { st with rp := .incEpoch, publishCount := st.publishCount + 1,
                trace := st.trace ++ [.publish st.eIdx] }
  | .incEpoch =>
      -- `self.e_idx += 1`
      { st with rp := .checkEpoch, eIdx := st.eIdx + 1,
                trace := st.trace ++ [.inc (st.eIdx + 1)] }
  | .exited => st
  | .stopped => st

/-- One micro-step of the consumer generator `OrderedEnqueuer.get`
(lines 255-272 of `data_utils.py`). -/
def stepCons (cfg : Config) (st : St) : St :=
  match st.cp with
  | .loopTop =>
      -- `while self.is_running():` — is_running is `not self.stop_signal.is_set()`
      if st.stopSignal then { st with cp := .ended } else { st with cp := .dequeuing }
  | .dequeuing =>
      -- `inputs = self.queue.get(block=True)`
      match st.queue with
      | [] => st
      | f :: rest => { st with queue := rest, cp := .resolving f }
  | .resolving f =>
      -- `.get()` on the future, then `if inputs is not None: yield inputs`
      if f.done then
        match cfg.produce f.task.epoch f.task.idx with
        | .ok v =>
            { st with cp := .loopTop, yielded := st.yielded ++ [v],
                      delivered := st.delivered ++ [f.task],
                      trace := st.trace ++ [.deliver f.task] }
        | .skip =>
            { st with cp := .loopTop, delivered := st.delivered ++ [f.task],
                      trace := st.trace ++ [.deliver f.task] }
        | .fail e =>
            -- `except Exception as e:` — the handler calls `self.stop()`,
            -- whose non-blocking head runs at once: `stop_signal.set()`,
            -- the force-clear of the queue under its mutex, and
            -- `not_full.notify()`; the pool close/join completes (the
            -- in-flight task was already submitted).  The handler is then
            -- inside `run_thread.join(None)` — the `stopping` phase.
            { st with cp := .stopping f.task e, stopSignal := true,
                      queue := [], stopCount := st.stopCount + 1,
                      getStopCount := st.getStopCount + 1 }
      else st
  | .ended => st
  | .stopping t e =>
      -- `run_thread.join(None)` has no timeout: it returns only once the
      -- run thread's target function has returned; then the handler runs
      -- `raise StopIteration(e)` and the generator terminates.
      if runThreadAlive st then st else { st with cp := .failed t e }
  | .failed _ _ => st

/-- Mark the future at queue position `i` as completed by a pool worker. -/
def markDone : List Fut → Nat → List Fut
  | [], _ => []
  | f :: rest, 0 => ⟨f.task, true⟩ :: rest
  | f :: rest, i + 1 => f :: markDone rest i

/-- The queue-manipulating body of an external `OrderedEnqueuer.stop()` call
(lines 296-313): set the stop signal, force-clear the queue under its mutex
and notify `not_full` (so a producer blocked in `put` re-checks and
proceeds); the executor close/join and `run_thread.join(timeout)` then
return to the caller. -/
def stepStop (st : St) : St :=
  { st with stopSignal := true, queue := [], stopCount := st.stopCount + 1 }

/-- The global step relation, as a function of the chosen action. -/
def step (cfg : Config) (st : St) : Act → St
  | .prod => stepProd cfg st
  | .complete i => { st with queue := markDone st.queue i }
  | .completeHeld =>
      match st.cp with
      | .resolving f => { st with cp := .resolving ⟨f.task, true⟩ }
      | _ => st
  | .cons => stepCons cfg st
  | .extStop => stepStop st

/-- State right after `start()`: pool and queue created, `stop_signal` a fresh
unset `threading.Event`, the run thread at the top of `_run`, the consumer at
the top of `get()`'s loop. -/
def init (cfg : Config) : St :=
  { rp := .sendInit, cp := .loopTop, queue := [], eIdx := cfg.e0,
    stopSignal := false, yielded := [], delivered := [], submitted := [],
    trace := [], stopCount := 0, getStopCount := 0, publishCount := 0,
    epochEndCount := 0 }

/-- Run the system from `start()` under an arbitrary interleaving. -/
def runSched (cfg : Config) (ks : List Act) : St :=
  ks.foldl (step cfg) (init cfg)

/-- `OrderedEnqueuer.is_running` after `start()`:
`self.stop_signal is not None and not self.stop_signal.is_set()`. -/
def isRunning (st : St) : Bool := !st.stopSignal

/-- A schedule containing no external `stop()` call. -/
def noStop (ks : List Act) : Prop := ∀ a ∈ ks, a ≠ Act.extStop

instance : DecidablePred noStop := fun ks =>
  inferInstanceAs (Decidable (∀ a ∈ ks, a ≠ Act.extStop))

/-! ### Canonical submission order -/

/-- The tasks of epoch `e`, in the order `_run` submits them. -/
def epochTasks (cfg : Config) (e : Nat) : List Task :=
  (cfg.perm e).map (fun b => ⟨e, b⟩)

/-- The canonical task stream after `m` complete epochs, starting from the
initial epoch: epoch `e0` in `perm e0` order, then epoch `e0+1`, ... -/
def canonEpochs (cfg : Config) : Nat → List Task
  | 0 => []
  | m + 1 => canonEpochs cfg m ++ epochTasks cfg (cfg.e0 + m)

/-- The values `get()` yields for a given list of resolved tasks, in order:
`ok` values kept, `skip` sentinels dropped (failures never reach `delivered`). -/
def yieldOf (cfg : Config) : List Task → List Nat
  | [] => []
  | t :: ts =>
      match cfg.produce t.epoch t.idx with
      | .ok v => v :: yieldOf cfg ts
      | _ => yieldOf cfg ts

/-! ### Canonical producer event stream -/

/-- Is this an event of the scheduling thread (as opposed to a delivery)? -/
def isProdEvent : Event → Bool
  | .deliver _ => false
  | _ => true

/-- The submit events for the first `r` tasks of epoch `e`. -/
def submitsOf (cfg : Config) (e r : Nat) : List Event :=
  ((epochTasks cfg e).take r).map Event.submit

/-- All producer events of one complete epoch, in program order: the submits
in permutation order, then `on_epoch_end`, then the re-publication, then the
epoch-counter increment. -/
def epochChunk (cfg : Config) (e : Nat) : List Event :=
  (epochTasks cfg e).map Event.submit ++
    [Event.epochEnd e, Event.publish e, Event.inc (e + 1)]

/-- Producer events of the first `m` complete epochs. -/
def prodChunks (cfg : Config) : Nat → List Event
  | 0 => []
  | m + 1 => prodChunks cfg m ++ epochChunk cfg (cfg.e0 + m)

/-- The producer events already emitted within the current (incomplete)
epoch `e`, as a function of the scheduling thread's phase. -/
def chunkPart (cfg : Config) (rp : RPhase) (e r : Nat) : List Event :=
  match rp with
  | .submitting _ => submitsOf cfg e r
  | .putting _ _ => submitsOf cfg e r
  | .stopped => submitsOf cfg e r
  | .draining => submitsOf cfg e (cfg.perm e).length
  | .epochEndCall => submitsOf cfg e (cfg.perm e).length
  | .sendSeq => submitsOf cfg e (cfg.perm e).length ++ [Event.epochEnd e]
  | .incEpoch => submitsOf cfg e (cfg.perm e).length ++ [Event.epochEnd e, Event.publish e]
  | _ => []

/-- The full canonical producer-event trace at phase `rp`, epoch `e0 + m`,
position `r` within the epoch. -/
def prodTraceCanon (cfg : Config) (rp : RPhase) (e m r : Nat) : List Event :=
  match rp with
  | .sendInit => []
  | _ => Event.publish cfg.e0 :: (prodChunks cfg m ++ chunkPart cfg rp e r)

/-! ### Invariants -/

/-- The task the consumer currently holds a future for, if any. -/
def heldOf (cp : CPhase) : List Task :=
  match cp with
  | .resolving f => [f.task]
  | _ => []

/-- The tasks currently occupying queue slots, oldest first. -/
def qTasksOf (q : List Fut) : List Task := q.map Fut.task

/-- Phases of the scheduling thread at which the queue is provably empty:
everything outside the submit loop, the drain spin and the stopped state. -/
def barrierPhase : RPhase → Bool
  | .sendInit => true
  | .checkEpoch => true
  | .epochEndCall => true
  | .sendSeq => true
  | .incEpoch => true
  | .exited => true
  | _ => false

/-- `on_epoch_end()` call count as a function of phase and completed epochs. -/
def eecOf : RPhase → Nat → Nat
  | .sendSeq, m => m + 1
  | .incEpoch, m => m + 1
  | _, m => m

/-- `_send_sequence()` call count as a function of phase and completed epochs. -/
def pubOf : RPhase → Nat → Nat
  | .sendInit, _ => 0
  | .incEpoch, m => m + 2
  | _, m => m + 1

/-- When a maximum epoch count is configured, epoch `e` is only worked on
while strictly below it. -/
def activeBound (cfg : Config) (e : Nat) : Prop :=
  match cfg.maxEpoch with
  | some mx => e < mx
  | none => True

/-- Phase-indexed bookkeeping tying the scheduling thread's program point to
the epoch count `m` and the position `r` inside the current epoch. -/
def RestOk (cfg : Config) (rp : RPhase) (e m r : Nat) : Prop :=
  match rp with
  | .sendInit => m = 0 ∧ r = 0
  | .checkEpoch => r = 0
  | .submitting rest => rest = (cfg.perm e).drop r ∧ activeBound cfg e
  | .putting b rest => b :: rest = (cfg.perm e).drop r ∧ activeBound cfg e
  | .draining => r = (cfg.perm e).length ∧ activeBound cfg e
  | .epochEndCall => r = (cfg.perm e).length ∧ activeBound cfg e
  | .sendSeq => r = (cfg.perm e).length ∧ activeBound cfg e
  | .incEpoch => r = (cfg.perm e).length ∧ activeBound cfg e
  | .exited => r = 0
  | .stopped => r ≤ (cfg.perm e).length ∧ activeBound cfg e

/-- Geometry of a reachable state: the ghost `submitted` list and the counters
are exactly determined by the scheduling thread's position; the producer
events in the trace form the canonical prefix. -/
def Geom (cfg : Config) (st : St) : Prop :=
  ∃ m r, st.eIdx = cfg.e0 + m ∧
    st.submitted = canonEpochs cfg m ++ (epochTasks cfg st.eIdx).take r ∧
    st.epochEndCount = eecOf st.rp m ∧
    st.publishCount = pubOf st.rp m ∧
    st.trace.filter isProdEvent = prodTraceCanon cfg st.rp st.eIdx m r ∧
    (m = 0 ∨ activeBound cfg (cfg.e0 + (m - 1))) ∧
    RestOk cfg st.rp st.eIdx m r

/-- Safety facts that hold in every reachable state, under every interleaving
(including external `stop()` calls and task failures). -/
def UInv (cfg : Config) (st : St) : Prop :=
  st.queue.length ≤ cfg.cap ∧
  (∀ f ∈ st.queue, f.task.epoch = st.eIdx) ∧
  (barrierPhase st.rp = true → st.queue = []) ∧
  (∀ t ∈ heldOf st.cp, t ∈ st.submitted) ∧
  (∀ t ∈ qTasksOf st.queue, t ∈ st.submitted) ∧
  st.delivered.length + (heldOf st.cp).length + st.queue.length ≤ st.submitted.length ∧
  (∀ t e, st.cp = CPhase.stopping t e ∨ st.cp = CPhase.failed t e →
    st.stopSignal = true ∧ st.getStopCount = 1 ∧
    cfg.produce t.epoch t.idx = PResult.fail e ∧ t ∈ st.submitted) ∧
  ((∀ t e, ¬ (st.cp = CPhase.stopping t e ∨ st.cp = CPhase.failed t e)) →
    st.getStopCount = 0)

/-- Facts that hold in every state reachable without an external `stop()`:
the yielded values come from the delivered tasks; the generator never
exhausts; the signal is only ever set by `get`'s failure handler; the
delivered tasks are a prefix of the submitted ones, and while no failure has
occurred the submitted tasks are exactly the delivered ones, the held one and
the queue contents, in order. -/
def NInv (cfg : Config) (st : St) : Prop :=
  st.yielded = yieldOf cfg st.delivered ∧
  st.cp ≠ CPhase.ended ∧
  (st.stopSignal = true →
    ∃ t e, st.cp = CPhase.stopping t e ∨ st.cp = CPhase.failed t e) ∧
  st.delivered <+: st.submitted ∧
  ((∃ t e, st.cp = CPhase.stopping t e ∨ st.cp = CPhase.failed t e) ∨
    st.delivered ++ heldOf st.cp ++ qTasksOf st.queue = st.submitted)

/-! ### Further definitions: iteration, scenarios, the other models -/

/-- Iterate only the scheduling thread (used to show it spins forever). -/
def prodIter (cfg : Config) : Nat → St → St
  | 0, st => st
  | n + 1, st => prodIter cfg n (stepProd cfg st)

/-- The deliveries and `on_epoch_end` calls of a trace, in order. -/
def isEdEvent : Event → Bool
  | .deliver _ => true
  | .epochEnd _ => true
  | _ => false

/-- Project a trace to its deliveries and `on_epoch_end` calls. -/
def edEvents (tr : List Event) : List Event := tr.filter isEdEvent

/-- The C2 scenario: work-source length 5, `initial_epoch=0`, `max_epoch=2`,
`max_queue_size=2`, `workers=2`, no shuffle, `produce e b = 10*e + b`. -/
def cfg2 : Config :=
  ⟨0, some 2, 2, 2, fun _ => List.range 5, fun e b => PResult.ok (10 * e + b)⟩

/-- Actions processing one work item end to end: the scheduler submits it,
the consumer dequeues its future, the pool completes it, the consumer
resolves and yields it. -/
def ksItem : List Act :=
  [Act.prod, Act.prod, Act.cons, Act.cons, Act.completeHeld, Act.cons]

/-- Actions of one full epoch of five items, including the epoch barrier. -/
def ksEpoch : List Act :=
  Act.prod :: (ksItem ++ ksItem ++ ksItem ++ ksItem ++ ksItem ++
    [Act.prod, Act.prod, Act.prod, Act.prod, Act.prod])

/-- A complete interleaving of the C2 scenario: two epochs, then the
`max_epoch` check breaks the loop. -/
def ks2 : List Act := Act.prod :: (ksEpoch ++ ksEpoch ++ [Act.prod])

/-- A failing work source: length 1, `produce` raises exception 7. -/
def cfgFail : Config :=
  ⟨0, some 1, 1, 1, fun _ => [0], fun _ _ => PResult.fail 7⟩

/-- Interleaving driving `cfgFail` into the consumer's except-branch. -/
def ksFail : List Act :=
  [Act.prod, Act.prod, Act.prod, Act.prod, Act.cons, Act.cons,
   Act.completeHeld, Act.cons]

/-- The C4 deadlock scenario: length 2, capacity 1, one epoch; producing
index 0 raises exception 7, index 1 succeeds. -/
def cfgF2 : Config :=
  ⟨0, some 1, 1, 1, fun _ => [0, 1],
   fun _ b => if b = 0 then PResult.fail 7 else PResult.ok b⟩

/-- Drive `cfgF2` until the scheduler is blocked putting the epoch's final
index, resolve index 0 to the failure (the handler enters `stop()`, whose
force-clear wakes the blocked `put`, and blocks in `run_thread.join(None)`),
then let the woken `put` refill the cleared queue and the scheduler reach
the epoch-drain spin on the non-empty queue. -/
def ksF2 : List Act :=
  [Act.prod, Act.prod, Act.prod, Act.prod, Act.prod, Act.cons, Act.cons,
   Act.completeHeld, Act.cons, Act.prod, Act.prod]

/-- `ksFail` continued: the run thread finishes its epoch and exits, so the
handler's `run_thread.join(None)` returns and `StopIteration(e)` is
raised. -/
def ksFail2 : List Act :=
  ksFail ++ [Act.prod, Act.prod, Act.prod, Act.prod, Act.prod, Act.prod,
   Act.cons]

/-- The deadlocked shape: the run thread spins in
`while not self.queue.empty(): pass` on a non-empty queue while the
consumer's except-handler is blocked in `run_thread.join(None)`. -/
def stuckInStop (st : St) : Bool :=
  match st.rp, st.cp with
  | RPhase.draining, CPhase.stopping _ _ => !st.queue.isEmpty
  | _, _ => false

/-- The C8 scenario: length 2, capacity 1, one epoch. -/
def cfg8 : Config := ⟨0, some 1, 1, 1, fun _ => [0, 1], fun _ b => PResult.ok b⟩

/-- Drive the C8 scenario until the scheduler is blocked inside
`queue.put` of the epoch's final index (the queue is full). -/
def ks8pre : List Act := [Act.prod, Act.prod, Act.prod, Act.prod, Act.prod]

/-- ... then `stop()` force-clears the queue, the woken `put` completes,
and the scheduler enters the epoch-drain spin on the non-empty queue. -/
def ks8 : List Act := ks8pre ++ [Act.extStop, Act.prod, Act.prod]

/-- The C10 witness scenario: `initial_epoch=5`, `max_epoch=3`. -/
def cfg10 : Config := ⟨5, some 3, 1, 1, fun _ => [0], fun _ _ => PResult.ok 0⟩

/-- Actions available when the consumer never calls `stop()`: the normal
operation of the enqueuer.  Quantifying over `List NAct` quantifies over
every interleaving and completion order without an external stop. -/
inductive NAct where
  | prod
  | complete (i : Nat)
  | completeHeld
  | cons
deriving DecidableEq

/-- Embed a stop-free action into the full action alphabet. -/
def NAct.toAct : NAct → Act
  | .prod => Act.prod
  | .complete i => Act.complete i
  | .completeHeld => Act.completeHeld
  | .cons => Act.cons

/-- Run the OrderedEnqueuer under a stop-free interleaving. -/
def nsRun (cfg : Config) (ks : List NAct) : St :=
  runSched cfg (ks.map NAct.toAct)

/-- From state `st`, under every stop-free interleaving, the consumer's
generator never reaches its exhausted state: `get()`'s sequence never
ends. -/
def SeqNeverEnds (cfg : Config) (st : St) : Prop :=
  ∀ ks : List NAct,
    ((ks.map NAct.toAct).foldl (step cfg) st).cp ≠ CPhase.ended

/-- From state `st`, under every stop-free interleaving, `get()` neither
raises the `StopIteration` carrying a failure nor reaches its exhausted
state: the sequence never terminates, normally or exceptionally. -/
def SeqNeverTerminates (cfg : Config) (st : St) : Prop :=
  ∀ ks : List NAct,
    (∀ t e,
      ((ks.map NAct.toAct).foldl (step cfg) st).cp ≠ CPhase.failed t e) ∧
    ((ks.map NAct.toAct).foldl (step cfg) st).cp ≠ CPhase.ended

/-! ### GeneratorEnqueuer, thread strategy (lines 363-404, 438-452)

With `use_multiprocessing=False`, `start()` creates an UNBOUNDED
`queue.Queue()` (line 389); each worker thread loops: if
`self.queue.qsize() < max_queue_size` it calls `next(self._generator)` and
then `self.queue.put(...)` — the size check and the put are separate
statements, so two workers can pass the check before either puts. -/

/-- A generator worker thread's position in `data_generator_task`. -/
inductive GWPhase where
  | atCheck              -- about to evaluate `self.queue.qsize() < max_queue_size`
  | holding (v : Nat)    -- passed the check, produced `v`, about to `put` it
deriving DecidableEq

/-- Interleaving actions for the GeneratorEnqueuer model. -/
inductive GAct where
  | gcheck (i : Nat)   -- worker `i` evaluates the size check (and produces)
  | gput (i : Nat)     -- worker `i` executes `self.queue.put(...)`
  | gget               -- the consumer's `get()` takes one item
deriving DecidableEq

/-- State of the GeneratorEnqueuer (thread strategy). -/
structure GenSt where
  gqueue : List Nat        -- the unbounded `queue.Queue()`
  gworkers : List GWPhase  -- one entry per worker thread
  nextV : Nat              -- the shared generator's next value
  gyielded : List Nat      -- values yielded by `get()`
  puts : List Nat          -- ghost: every value ever put, in order
  stopSet : Bool           -- `self._stop_event.is_set()`
deriving DecidableEq

/-- One micro-step of the GeneratorEnqueuer (thread strategy). -/
def gstep (maxq : Nat) (st : GenSt) : GAct → GenSt
  | .gcheck i =>
      -- `while not self._stop_event.is_set(): if self.queue.qsize() < max_queue_size:`
      if st.stopSet then st
      else
        match st.gworkers[i]? with
        | some GWPhase.atCheck =>
            if st.gqueue.length < maxq then
              { st with gworkers := st.gworkers.set i (GWPhase.holding st.nextV),
                        nextV := st.nextV + 1 }
            else st   -- `time.sleep(self.wait_time)`
        | _ => st
  | .gput i =>
      -- `self.queue.put(generator_output)` — the queue is unbounded
      match st.gworkers[i]? with
      | some (GWPhase.holding v) =>
          { st with gqueue := st.gqueue ++ [v], puts := st.puts ++ [v],
                    gworkers := st.gworkers.set i GWPhase.atCheck }
      | _ => st
  | .gget =>
      -- `while self.is_running(): if not self.queue.empty(): inputs = self.queue.get()`
      if st.stopSet then st
      else
        match st.gqueue with
        | [] => st
        | x :: rest => { st with gqueue := rest, gyielded := st.gyielded ++ [x] }

/-- GeneratorEnqueuer state right after `start(workers, max_queue_size)`. -/
def ginit (w : Nat) : GenSt :=
  ⟨[], List.replicate w GWPhase.atCheck, 0, [], [], false⟩

/-- Run the GeneratorEnqueuer model under an arbitrary interleaving. -/
def runGen (maxq w : Nat) (ks : List GAct) : GenSt :=
  ks.foldl (gstep maxq) (ginit w)

/-- Is this worker holding a produced-but-not-yet-put item? -/
def isHolding : GWPhase → Bool
  | .holding _ => true
  | _ => false

/-- How many workers have passed the size check but not yet put. -/
def countHolding (ws : List GWPhase) : Nat := (ws.filter isHolding).length

/-- Invariant of the GeneratorEnqueuer (thread strategy): the worker list
keeps its size; the queue plus the produced-but-unput items never exceed
`max_queue_size - 1 + workers` (each worker can overshoot the size check by
one); and nothing is ever dropped: the yields followed by the current queue
are exactly the puts, in order. -/
def GInv (maxq w : Nat) (st : GenSt) : Prop :=
  st.gworkers.length = w ∧
  st.gqueue.length + countHolding st.gworkers ≤ (maxq - 1) + w ∧
  st.gyielded ++ st.gqueue = st.puts

/-! ### The `_send_sequence` acknowledgement loop (lines 274-294)

With `use_multiprocessing=True`, `_send_sequence` loops
`while len(_SHARED_DICTS[self.uuid]) < self.workers and not
self.stop_signal.is_set(): self.executor.apply(_update_sequence, ...)`.
`_update_sequence` records the executing pool process's pid in the shared
dict; which process runs each `apply` is the pool's choice.  There is no
timeout in this loop. -/

/-- `_update_sequence` run by the pool process `choice k` at iteration `k`:
record the pid if it is new (lines 88-96). -/
def applySeqUpdate (choice : Nat → Nat) (k : Nat) (acked : List Nat) :
    List Nat :=
  if choice k ∈ acked then acked else acked ++ [choice k]

/-- The acknowledgement set after `n` iterations of `_send_sequence`'s
while-loop, with `workers` expected pids, no stop signal and no socket
error: the loop body runs whenever the loop condition still holds. -/
def ackIter (workers : Nat) (choice : Nat → Nat) : Nat → List Nat
  | 0 => []
  | n + 1 =>
      let s := ackIter workers choice n
      if s.length < workers then applySeqUpdate choice n s else s

/-! ### Object lifecycle: attributes that are `None` before `start()`

`OrderedEnqueuer.__init__` leaves `stop_signal`, `queue`, `executor` and
`run_thread` as `None`; `GeneratorEnqueuer.__init__` leaves `_stop_event`
and `queue` as `None` with `_threads = []`.  The lifecycle model tracks
exactly the attribute accesses `stop()` and `is_running()` perform. -/

/-- A Python exception relevant to the lifecycle model. -/
inductive PyErr where
  | attributeError    -- e.g. `AttributeError: 'NoneType' object has no attribute 'set'`
deriving DecidableEq

/-- State of a `multiprocessing.pool` object: `close()` moves RUN → CLOSE
and is a no-op on an already closed pool; `join()` requires CLOSE. -/
inductive PoolPhase where
  | running
  | closed
deriving DecidableEq

/-- The attributes of an `OrderedEnqueuer` instance that its lifecycle
methods touch. -/
structure OrderedObj where
  stop_signal : Option Bool      -- `None`, or an Event with its set-flag
  queueAttr : Option Nat         -- `self.queue` (`None` before start)
  executor : Option PoolPhase    -- `self.executor`
  runThreadStarted : Bool        -- whether `self.run_thread` is a Thread
deriving DecidableEq

/-- `OrderedEnqueuer.__init__` (lines 178-196). -/
def OrderedObj.new : OrderedObj := ⟨none, none, none, false⟩

/-- `OrderedEnqueuer.is_running` (lines 204-205):
`self.stop_signal is not None and not self.stop_signal.is_set()`. -/
def OrderedObj.isRunningO (o : OrderedObj) : Bool :=
  match o.stop_signal with
  | none => false
  | some b => !b

/-- `OrderedEnqueuer.start` (lines 207-226): creates the pool, the queue
and a fresh unset stop-signal Event, and starts the run thread. -/
def OrderedObj.startO (o : OrderedObj) (cap : Nat) : OrderedObj :=
  { o with executor := some PoolPhase.running, queueAttr := some cap,
           stop_signal := some false, runThreadStarted := true }

/-- `OrderedEnqueuer.stop` (lines 296-322).  The first statement is
`self.stop_signal.set()`: on a never-started instance `stop_signal` is
`None` and this raises `AttributeError`.  Otherwise the queue is cleared
under its mutex, the pool is closed (idempotently) and joined, and the run
thread is joined. -/
def OrderedObj.stopO (o : OrderedObj) : Except PyErr OrderedObj :=
  match o.stop_signal with
  | none => Except.error PyErr.attributeError
  | some _ =>
    match o.queueAttr with
    | none => Except.error PyErr.attributeError
    | some c =>
      match o.executor with
      | none => Except.error PyErr.attributeError
      | some _ =>
        if o.runThreadStarted then
          Except.ok { o with stop_signal := some true, queueAttr := some c,
                             executor := some PoolPhase.closed }
        else Except.error PyErr.attributeError

/-- The attributes of a `GeneratorEnqueuer` instance that its lifecycle
methods touch. -/
structure GenObj where
  stop_event : Option Bool   -- `self._stop_event`
  threadsG : List Bool       -- `self._threads` (alive flags)
  queueAttrG : Option Nat    -- `self.queue`
deriving DecidableEq

/-- `GeneratorEnqueuer.__init__` (lines 351-361). -/
def GenObj.new : GenObj := ⟨none, [], none⟩

/-- `GeneratorEnqueuer.is_running` (lines 409-410). -/
def GenObj.isRunningG (g : GenObj) : Bool :=
  match g.stop_event with
  | none => false
  | some b => !b

/-- `GeneratorEnqueuer.start` (lines 363-404, thread strategy). -/
def GenObj.startG (g : GenObj) (workers : Nat) : GenObj :=
  { g with stop_event := some false, threadsG := List.replicate workers true,
           queueAttrG := some 0 }

/-- `GeneratorEnqueuer.stop` (lines 412-436): `if self.is_running():
self._stop_event.set()` (the guard protects the `None` case), join each
thread, then reset `_threads`, `_stop_event` and `queue`. -/
def GenObj.stopG (g : GenObj) : Except PyErr GenObj :=
  match
    (if g.isRunningG then
      match g.stop_event with
      | none => Except.error PyErr.attributeError   -- dead: the guard implies `some`
      | some _ => Except.ok { g with stop_event := some true }
    else Except.ok g) with
  | Except.error e => Except.error e
  | Except.ok g1 =>
      Except.ok { g1 with stop_event := none, threadsG := [],
                          queueAttrG := none }

/-! ### List helpers -/

theorem take_push {α : Type} (l : List α) (r : Nat) (b : α) (rest : List α)
    (h : l.drop r = b :: rest) :
    l.take (r + 1) = l.take r ++ [b] ∧ l.drop (r + 1) = rest := by
  induction l generalizing r with
  | nil => simp at h
  | cons x xs ih =>
    cases r with
    | zero =>
      simp only [List.drop] at h
      cases h
      simp
    | succ r =>
      simp only [List.drop_succ_cons] at h
      have := ih r h
      simp [List.take_succ_cons, List.drop_succ_cons, this.1, this.2]

theorem take_all_of_drop_nil {α : Type} (l : List α) (r : Nat)
    (h : l.drop r = []) : l.take r = l := by
  induction l generalizing r with
  | nil => simp
  | cons x xs ih =>
    cases r with
    | zero => simp at h
    | succ r =>
      simp only [List.drop_succ_cons] at h
      simp [List.take_succ_cons, ih r h]

theorem lt_length_of_drop_cons {α : Type} (l : List α) (r : Nat) (b : α)
    (rest : List α) (h : l.drop r = b :: rest) : r < l.length := by
  by_contra hge
  rw [List.drop_eq_nil_of_le (Nat.le_of_not_lt hge)] at h
  exact List.noConfusion h

theorem pref_app {α : Type} (l t : List α) : l <+: l ++ t := ⟨t, rfl⟩

theorem pref_trans {α : Type} {l₁ l₂ l₃ : List α}
    (h₁ : l₁ <+: l₂) (h₂ : l₂ <+: l₃) : l₁ <+: l₃ := by
  obtain ⟨a, rfl⟩ := h₁
  obtain ⟨b, rfl⟩ := h₂
  exact ⟨a ++ b, by simp⟩

theorem pref_app_right {α : Type} {l₁ l₂ : List α} (t : List α)
    (h : l₁ <+: l₂) : l₁ <+: l₂ ++ t :=
  pref_trans h (pref_app l₂ t)

theorem yieldOf_append (cfg : Config) (l₁ l₂ : List Task) :
    yieldOf cfg (l₁ ++ l₂) = yieldOf cfg l₁ ++ yieldOf cfg l₂ := by
  induction l₁ with
  | nil => simp [yieldOf]
  | cons t ts ih =>
    simp only [List.cons_append, yieldOf]
    cases cfg.produce t.epoch t.idx <;> simp [ih]

theorem yieldOf_pref_mono (cfg : Config) {l₁ l₂ : List Task}
    (h : l₁ <+: l₂) : yieldOf cfg l₁ <+: yieldOf cfg l₂ := by
  obtain ⟨t, rfl⟩ := h
  rw [yieldOf_append]
  exact pref_app _ _

theorem canonEpochs_pref_mono (cfg : Config) {m m' : Nat} (h : m ≤ m') :
    canonEpochs cfg m <+: canonEpochs cfg m' := by
  induction m' with
  | zero => cases Nat.le_zero.mp h; exact ⟨[], rfl⟩
  | succ k ih =>
    rcases Nat.lt_or_ge m (k + 1) with hlt | hge
    · exact pref_app_right _ (ih (Nat.lt_succ_iff.mp hlt))
    · cases Nat.le_antisymm h hge; exact ⟨[], by simp⟩

theorem markDone_map_task (q : List Fut) (i : Nat) :
    (markDone q i).map Fut.task = q.map Fut.task := by
  induction q generalizing i with
  | nil => simp [markDone]
  | cons f rest ih =>
    cases i with
    | zero => simp [markDone]
    | succ i => simp [markDone, ih]

theorem markDone_length (q : List Fut) (i : Nat) :
    (markDone q i).length = q.length := by
  have := markDone_map_task q i
  have h1 := congrArg List.length this
  simpa using h1

theorem isEmpty_markDone (q : List Fut) (i : Nat) :
    (markDone q i).isEmpty = q.isEmpty := by
  cases q with
  | nil => cases i <;> rfl
  | cons f rest => cases i <;> rfl

theorem markDone_epochs (q : List Fut) (i : Nat) (e : Nat)
    (h : ∀ f ∈ q, f.task.epoch = e) : ∀ f ∈ markDone q i, f.task.epoch = e := by
  induction q generalizing i with
  | nil => simp [markDone]
  | cons g rest ih =>
    cases i with
    | zero =>
      intro f hf
      simp only [markDone, List.mem_cons] at hf
      rcases hf with rfl | hf
      · exact h g (by simp)
      · exact h f (by simp [hf])
    | succ i =>
      intro f hf
      simp only [markDone, List.mem_cons] at hf
      rcases hf with rfl | hf
      · exact h f (by simp)
      · exact ih i (fun g hg => h g (by simp [hg])) f hf

theorem epochTasks_length (cfg : Config) (e : Nat) :
    (epochTasks cfg e).length = (cfg.perm e).length := by
  simp [epochTasks]

/-! ### Preservation of `Geom` -/

theorem geom_stepProd (cfg : Config) (st : St) (h : Geom cfg st) :
    Geom cfg (stepProd cfg st) := by
  obtain ⟨m, r, hei, hsub, heec, hpub, htr, hact0, hrest⟩ := h
  obtain ⟨rp, cp, queue, eIdx, ss, yl, dl, sb, tr, sc, gsc, pc, ec⟩ := st
  dsimp only at hei hsub heec hpub htr hrest ⊢
  subst hei hsub heec hpub
  cases rp with
  | sendInit =>
      obtain ⟨hm0, hr0⟩ := hrest
      subst hm0 hr0
      simp only [prodTraceCanon] at htr
      refine ⟨0, 0, ?_, ?_, ?_, ?_, ?_, Or.inl rfl, ?_⟩ <;>
        simp [stepProd, eecOf, pubOf, RestOk, prodTraceCanon, prodChunks,
          chunkPart, List.filter_append, htr, isProdEvent]
  | checkEpoch =>
      simp only [RestOk] at hrest
      subst hrest
      cases hmx : cfg.maxEpoch with
      | some mx =>
        by_cases hge : cfg.e0 + m ≥ mx
        · refine ⟨m, 0, ?_, ?_, ?_, ?_, ?_, hact0, ?_⟩ <;>
            simp [stepProd, hmx, hge, eecOf, pubOf, RestOk, prodTraceCanon,
              chunkPart, htr]
        · refine ⟨m, 0, ?_, ?_, ?_, ?_, ?_, hact0, ?_⟩ <;>
            simp [stepProd, hmx, hge, eecOf, pubOf, RestOk, prodTraceCanon,
              chunkPart, submitsOf, activeBound, htr, Nat.lt_of_not_le hge]
      | none =>
        refine ⟨m, 0, ?_, ?_, ?_, ?_, ?_, hact0, ?_⟩ <;>
          simp [stepProd, hmx, eecOf, pubOf, RestOk, prodTraceCanon,
            chunkPart, submitsOf, activeBound, htr]
  | submitting rest =>
      simp only [RestOk] at hrest
      obtain ⟨hdrop, hact⟩ := hrest
      cases rest with
      | nil =>
        have htakeT : (epochTasks cfg (cfg.e0 + m)).take r =
            epochTasks cfg (cfg.e0 + m) := by
          apply take_all_of_drop_nil
          simp [epochTasks, ← List.map_drop, ← hdrop]
        refine ⟨m, (cfg.perm (cfg.e0 + m)).length, ?_, ?_, ?_, ?_, ?_,
          hact0, ?_⟩ <;>
          simp [stepProd, eecOf, pubOf, RestOk, prodTraceCanon, chunkPart,
            submitsOf, htr, htakeT, hact, List.take_length, epochTasks_length]
      | cons b brest =>
        by_cases hss : ss
        · have hle : r ≤ (cfg.perm (cfg.e0 + m)).length :=
            Nat.le_of_lt (lt_length_of_drop_cons _ _ _ _ hdrop.symm)
          refine ⟨m, r, ?_, ?_, ?_, ?_, ?_, hact0, ?_⟩ <;>
            simp [stepProd, hss, eecOf, pubOf, RestOk, prodTraceCanon,
              chunkPart, htr, hle, hact]
        · refine ⟨m, r, ?_, ?_, ?_, ?_, ?_, hact0, ?_⟩ <;>
            simp [stepProd, hss, eecOf, pubOf, RestOk, prodTraceCanon,
              chunkPart, htr, hdrop, hact]
  | putting b rest =>
      simp only [RestOk] at hrest
      obtain ⟨hdrop, hact⟩ := hrest
      by_cases hlt : queue.length < cfg.cap
      · have hdropT : (epochTasks cfg (cfg.e0 + m)).drop r =
            (⟨cfg.e0 + m, b⟩ : Task) ::
              (epochTasks cfg (cfg.e0 + m)).drop (r + 1) := by
          have h2 := take_push (cfg.perm (cfg.e0 + m)) r b rest hdrop.symm
          simp [epochTasks, ← List.map_drop, ← hdrop, h2.2]
        have hpushT := take_push (epochTasks cfg (cfg.e0 + m)) r
          ⟨cfg.e0 + m, b⟩ _ hdropT
        have hdropP := take_push (cfg.perm (cfg.e0 + m)) r b rest hdrop.symm
        refine ⟨m, r + 1, ?_, ?_, ?_, ?_, ?_, hact0, ?_⟩ <;>
          simp [stepProd, hlt, eecOf, pubOf, RestOk, prodTraceCanon,
            chunkPart, submitsOf, isProdEvent, htr, hpushT.1, hdropP.2, hact,
            List.filter_append]
      · refine ⟨m, r, ?_, ?_, ?_, ?_, ?_, hact0, ?_⟩ <;>
          simp [stepProd, hlt, eecOf, pubOf, RestOk, prodTraceCanon,
            chunkPart, htr, hdrop, hact]
  | draining =>
      simp only [RestOk] at hrest
      obtain ⟨hr, hact⟩ := hrest
      by_cases hq : queue.isEmpty
      · refine ⟨m, r, ?_, ?_, ?_, ?_, ?_, hact0, ?_⟩ <;>
          simp [stepProd, hq, eecOf, pubOf, RestOk, prodTraceCanon,
            chunkPart, htr, hr, hact]
      · refine ⟨m, r, ?_, ?_, ?_, ?_, ?_, hact0, ?_⟩ <;>
          simp [stepProd, hq, eecOf, pubOf, RestOk, prodTraceCanon,
            chunkPart, htr, hr, hact]
  | epochEndCall =>
      simp only [RestOk] at hrest
      obtain ⟨hr, hact⟩ := hrest
      refine ⟨m, r, ?_, ?_, ?_, ?_, ?_, hact0, ?_⟩ <;>
        simp [stepProd, eecOf, pubOf, RestOk, prodTraceCanon, chunkPart,
          isProdEvent, htr, hr, hact, List.filter_append]
  | sendSeq =>
      simp only [RestOk] at hrest
      obtain ⟨hr, hact⟩ := hrest
      refine ⟨m, r, ?_, ?_, ?_, ?_, ?_, hact0, ?_⟩ <;>
        simp [stepProd, eecOf, pubOf, RestOk, prodTraceCanon, chunkPart,
          isProdEvent, htr, hr, hact, List.filter_append]
  | incEpoch =>
      simp only [RestOk] at hrest
      obtain ⟨hr, hact⟩ := hrest
      subst hr
      refine ⟨m + 1, 0, ?_, ?_, ?_, ?_, ?_, Or.inr ?_, ?_⟩
      · simp [stepProd, Nat.add_assoc]
      · simp [stepProd, canonEpochs, epochTasks, List.take_length]
      · simp [stepProd, eecOf]
      · simp [stepProd, pubOf]
      · simp only [stepProd]
        simp only [List.filter_append, htr]
        simp [prodTraceCanon, chunkPart, prodChunks, isProdEvent, epochChunk,
          submitsOf, List.take_length, epochTasks_length]
      · simpa using hact
      · simp [stepProd, RestOk]
  | exited =>
      simp only [RestOk] at hrest
      refine ⟨m, r, ?_, ?_, ?_, ?_, ?_, hact0, ?_⟩ <;>
        simp [stepProd, eecOf, pubOf, RestOk, prodTraceCanon, chunkPart,
          htr, hrest]
  | stopped =>
      simp only [RestOk] at hrest
      refine ⟨m, r, ?_, ?_, ?_, ?_, ?_, hact0, ?_⟩ <;>
        simp [stepProd, eecOf, pubOf, RestOk, prodTraceCanon, chunkPart,
          htr, hrest]

theorem geom_step (cfg : Config) (st : St) (a : Act) (h : Geom cfg st) :
    Geom cfg (step cfg st a) := by
  cases a with
  | prod => exact geom_stepProd cfg st h
  | complete i => exact h
  | completeHeld =>
      obtain ⟨rp, cp, queue, eIdx, ss, yl, dl, sb, tr, sc, gsc, pc, ec⟩ := st
      cases cp <;> exact h
  | extStop => exact h
  | cons =>
      obtain ⟨m, r, hei, hsub, heec, hpub, htr, hact0, hrest⟩ := h
      obtain ⟨rp, cp, queue, eIdx, ss, yl, dl, sb, tr, sc, gsc, pc, ec⟩ := st
      dsimp only at hei hsub heec hpub htr hact0 hrest ⊢
      cases cp with
      | loopTop =>
          cases ss <;> exact ⟨m, r, hei, hsub, heec, hpub, htr, hact0, hrest⟩
      | dequeuing =>
          cases queue <;>
            exact ⟨m, r, hei, hsub, heec, hpub, htr, hact0, hrest⟩
      | resolving f =>
          obtain ⟨t, d⟩ := f
          cases d with
          | false => exact ⟨m, r, hei, hsub, heec, hpub, htr, hact0, hrest⟩
          | true =>
              simp only [step, stepCons]
              cases hpr : cfg.produce t.epoch t.idx <;>
                refine ⟨m, r, hei, hsub, heec, hpub, ?_, hact0, hrest⟩ <;>
                simp [List.filter_append, isProdEvent, htr]
      | ended => exact ⟨m, r, hei, hsub, heec, hpub, htr, hact0, hrest⟩
      | stopping t e =>
          simp only [step, stepCons]
          split <;> exact ⟨m, r, hei, hsub, heec, hpub, htr, hact0, hrest⟩
      | failed t e => exact ⟨m, r, hei, hsub, heec, hpub, htr, hact0, hrest⟩

theorem geom_runFrom (cfg : Config) (st : St) (h : Geom cfg st) :
    ∀ ks : List Act, Geom cfg (ks.foldl (step cfg) st) := by
  intro ks
  induction ks generalizing st with
  | nil => exact h
  | cons a ks ih => exact ih (step cfg st a) (geom_step cfg st a h)

theorem geom_init (cfg : Config) : Geom cfg (init cfg) := by
  refine ⟨0, 0, rfl, ?_, ?_, ?_, ?_, Or.inl rfl, ?_⟩ <;>
    simp [init, canonEpochs, eecOf, pubOf, prodTraceCanon, RestOk]

theorem geom_run (cfg : Config) (ks : List Act) : Geom cfg (runSched cfg ks) :=
  geom_runFrom cfg (init cfg) (geom_init cfg) ks

/-! ### Preservation of `UInv` -/

theorem uinv_stepProd (cfg : Config) (st : St) (h : UInv cfg st) :
    UInv cfg (stepProd cfg st) := by
  obtain ⟨h1, h2, h3, h4, h4q, h5, h6, h7⟩ := h
  obtain ⟨rp, cp, queue, eIdx, ss, yl, dl, sb, tr, sc, gsc, pc, ec⟩ := st
  dsimp only at h1 h2 h3 h4 h4q h5 h6 h7 ⊢
  cases rp with
  | sendInit =>
      exact ⟨h1, h2, fun _ => h3 rfl, h4, h4q, h5, h6, h7⟩
  | checkEpoch =>
      cases hmx : cfg.maxEpoch with
      | some mx =>
        by_cases hge : eIdx ≥ mx
        · simp only [stepProd, hmx, if_pos hge]
          exact ⟨h1, h2, fun _ => h3 rfl, h4, h4q, h5, h6, h7⟩
        · simp only [stepProd, hmx, if_neg hge]
          exact ⟨h1, h2, by simp [barrierPhase], h4, h4q, h5, h6, h7⟩
      | none =>
        simp only [stepProd, hmx]
        exact ⟨h1, h2, by simp [barrierPhase], h4, h4q, h5, h6, h7⟩
  | submitting rest =>
      cases rest with
      | nil =>
        exact ⟨h1, h2, by simp [stepProd, barrierPhase], h4, h4q, h5, h6, h7⟩
      | cons b brest =>
        cases ss <;>
          exact ⟨h1, h2, by simp [stepProd, barrierPhase], h4, h4q, h5, h6,
            h7⟩
  | putting b rest =>
      by_cases hlt : queue.length < cfg.cap
      · simp only [stepProd, hlt, if_true]
        refine ⟨?_, ?_, by simp [barrierPhase], ?_, ?_, ?_, ?_, h7⟩
        · simpa using hlt
        · intro f hf
          rcases List.mem_append.mp hf with hf | hf
          · exact h2 f hf
          · simp only [List.mem_singleton] at hf
            subst hf; rfl
        · intro t ht
          exact List.mem_append_left _ (h4 t ht)
        · intro t ht
          simp only [qTasksOf, List.map_append, List.map_cons,
            List.map_nil] at ht
          rcases List.mem_append.mp ht with hf | hf
          · exact List.mem_append_left _ (h4q t hf)
          · simp only [List.mem_singleton] at hf
            subst hf
            exact List.mem_append_right _ (by simp)
        · simp only [List.length_append, List.length_cons, List.length_nil]
          omega
        · intro t e hcp
          obtain ⟨ha, hb, hc, hd⟩ := h6 t e hcp
          exact ⟨ha, hb, hc, List.mem_append_left _ hd⟩
      · simp only [stepProd, hlt, if_false]
        exact ⟨h1, h2, h3, h4, h4q, h5, h6, h7⟩
  | draining =>
      by_cases hq : queue.isEmpty
      · simp only [stepProd, hq, if_true]
        have hqe : queue = [] := by simpa [List.isEmpty_iff] using hq
        exact ⟨h1, h2, fun _ => hqe, h4, h4q, h5, h6, h7⟩
      · simp only [stepProd, hq, if_false]
        exact ⟨h1, h2, h3, h4, h4q, h5, h6, h7⟩
  | epochEndCall =>
      exact ⟨h1, h2, fun _ => h3 rfl, h4, h4q, h5, h6, h7⟩
  | sendSeq =>
      exact ⟨h1, h2, fun _ => h3 rfl, h4, h4q, h5, h6, h7⟩
  | incEpoch =>
      have hqe : queue = [] := h3 rfl
      subst hqe
      simp only [stepProd]
      exact ⟨by simp, by simp, fun _ => rfl, h4, by simp [qTasksOf],
        by simpa using h5, h6, h7⟩
  | exited =>
      exact ⟨h1, h2, fun _ => h3 rfl, h4, h4q, h5, h6, h7⟩
  | stopped =>
      exact ⟨h1, h2, h3, h4, h4q, h5, h6, h7⟩

theorem uinv_stepCons (cfg : Config) (st : St) (h : UInv cfg st) :
    UInv cfg (stepCons cfg st) := by
  obtain ⟨h1, h2, h3, h4, h4q, h5, h6, h7⟩ := h
  obtain ⟨rp, cp, queue, eIdx, ss, yl, dl, sb, tr, sc, gsc, pc, ec⟩ := st
  dsimp only at h1 h2 h3 h4 h4q h5 h6 h7 ⊢
  cases cp with
  | loopTop =>
      have hg : gsc = 0 := h7 (by intro t e hne; rcases hne with h | h <;> exact CPhase.noConfusion h)
      cases ss <;>
        refine ⟨by simpa [stepCons] using h1, by simpa [stepCons] using h2,
          by simpa [stepCons] using h3, by simp [stepCons, heldOf],
          by simpa [stepCons, qTasksOf] using h4q,
          by simpa [stepCons, heldOf] using h5,
          by intro t e hne; simp [stepCons] at hne,
          fun _ => hg⟩
  | dequeuing =>
      have hg : gsc = 0 := h7 (by intro t e hne; rcases hne with h | h <;> exact CPhase.noConfusion h)
      cases queue with
      | nil => exact ⟨h1, h2, h3, h4, h4q, h5, h6, h7⟩
      | cons f rest =>
        simp only [stepCons]
        refine ⟨by simpa using Nat.le_of_succ_le h1, ?_, ?_, ?_, ?_, ?_,
          ?_, fun _ => hg⟩
        · intro g hg2
          exact h2 g (by simp [hg2])
        · intro hb
          exact absurd (h3 hb) (by simp)
        · intro t ht
          simp only [heldOf, List.mem_singleton] at ht
          subst ht
          exact h4q f.task (by simp [qTasksOf])
        · intro t ht
          refine h4q t ?_
          simp only [qTasksOf, List.map_cons, List.mem_cons]
          exact Or.inr (by simpa [qTasksOf] using ht)
        · simp only [heldOf, List.length_cons, List.length_nil,
            List.length_singleton] at h5 ⊢
          omega
        · intro t e hne; rcases hne with h | h <;> cases h
  | resolving f =>
      have hg : gsc = 0 := h7 (by intro t e hne; rcases hne with h | h <;> exact CPhase.noConfusion h)
      obtain ⟨t0, d⟩ := f
      cases d with
      | false => exact ⟨h1, h2, h3, h4, h4q, h5, h6, h7⟩
      | true =>
        simp only [heldOf, List.length_singleton] at h5
        cases hpr : cfg.produce t0.epoch t0.idx with
        | ok v =>
            simp only [stepCons, hpr, if_true]
            refine ⟨h1, h2, h3, by simp [heldOf], h4q, ?_, ?_, fun _ => hg⟩
            · simp only [heldOf, List.length_nil, List.length_append,
                List.length_singleton]
              omega
            · intro t e hne; rcases hne with h | h <;> cases h
        | skip =>
            simp only [stepCons, hpr, if_true]
            refine ⟨h1, h2, h3, by simp [heldOf], h4q, ?_, ?_, fun _ => hg⟩
            · simp only [heldOf, List.length_nil, List.length_append,
                List.length_singleton]
              omega
            · intro t e hne; rcases hne with h | h <;> cases h
        | fail e0 =>
            simp only [stepCons, hpr, if_true]
            refine ⟨by simp, by simp, fun _ => rfl, by simp [heldOf],
              by simp [qTasksOf], ?_, ?_, ?_⟩
            · simp only [heldOf, List.length_nil, List.length_append,
                List.length_singleton]
              omega
            · intro t e hcp
              rcases hcp with hh | hh
              · injection hh with ht he
                subst ht; subst he
                refine ⟨rfl, by simp [hg], hpr, ?_⟩
                exact h4 t0 (by simp [heldOf])
              · cases hh
            · intro hall
              exact absurd (Or.inl rfl) (hall t0 e0)
  | ended => exact ⟨h1, h2, h3, h4, h4q, h5, h6, h7⟩
  | stopping t e =>
      have hfacts := h6 t e (Or.inl rfl)
      simp only [stepCons]
      split
      · exact ⟨h1, h2, h3, h4, h4q, h5, h6, h7⟩
      · refine ⟨h1, h2, h3, by simp [heldOf], h4q,
          by simpa [heldOf] using h5, ?_, ?_⟩
        · intro t2 e2 hcp
          rcases hcp with hh | hh
          · cases hh
          · injection hh with ht he
            subst ht; subst he
            exact hfacts
        · intro hall
          exact absurd (Or.inr rfl) (hall t e)
  | failed t e => exact ⟨h1, h2, h3, h4, h4q, h5, h6, h7⟩

theorem uinv_step (cfg : Config) (st : St) (a : Act) (h : UInv cfg st) :
    UInv cfg (step cfg st a) := by
  cases a with
  | prod => exact uinv_stepProd cfg st h
  | cons => exact uinv_stepCons cfg st h
  | complete i =>
      obtain ⟨h1, h2, h3, h4, h4q, h5, h6, h7⟩ := h
      obtain ⟨rp, cp, queue, eIdx, ss, yl, dl, sb, tr, sc, gsc, pc, ec⟩ := st
      dsimp only at h1 h2 h3 h4 h4q h5 h6 h7 ⊢
      simp only [step]
      refine ⟨?_, ?_, ?_, h4, ?_, ?_, h6, h7⟩
      · simpa [markDone_length] using h1
      · exact markDone_epochs queue i eIdx h2
      · intro hb
        rw [h3 hb]
        rfl
      · intro t ht
        apply h4q
        simpa [qTasksOf, markDone_map_task] using ht
      · simpa [markDone_length] using h5
  | completeHeld =>
      obtain ⟨h1, h2, h3, h4, h4q, h5, h6, h7⟩ := h
      obtain ⟨rp, cp, queue, eIdx, ss, yl, dl, sb, tr, sc, gsc, pc, ec⟩ := st
      dsimp only at h1 h2 h3 h4 h4q h5 h6 h7 ⊢
      cases cp with
      | resolving f =>
          simp only [step]
          exact ⟨h1, h2, h3, (by simpa [heldOf] using h4), h4q,
            (by simpa [heldOf] using h5), (by intro t e hne; rcases hne with h | h <;> cases h),
            fun _ => h7 (by intro t e hne; rcases hne with h | h <;> exact CPhase.noConfusion h)⟩
      | loopTop => exact ⟨h1, h2, h3, h4, h4q, h5, h6, h7⟩
      | dequeuing => exact ⟨h1, h2, h3, h4, h4q, h5, h6, h7⟩
      | ended => exact ⟨h1, h2, h3, h4, h4q, h5, h6, h7⟩
      | stopping t e => exact ⟨h1, h2, h3, h4, h4q, h5, h6, h7⟩
      | failed t e => exact ⟨h1, h2, h3, h4, h4q, h5, h6, h7⟩
  | extStop =>
      obtain ⟨h1, h2, h3, h4, h4q, h5, h6, h7⟩ := h
      obtain ⟨rp, cp, queue, eIdx, ss, yl, dl, sb, tr, sc, gsc, pc, ec⟩ := st
      dsimp only at h1 h2 h3 h4 h4q h5 h6 h7 ⊢
      simp only [step, stepStop]
      refine ⟨by simp, by simp, fun _ => rfl, h4, by simp [qTasksOf], ?_,
        ?_, h7⟩
      · simp only [List.length_nil]
        omega
      · intro t e hcp
        obtain ⟨ha, hb, hc, hd⟩ := h6 t e hcp
        exact ⟨rfl, hb, hc, hd⟩

theorem uinv_runFrom (cfg : Config) (st : St) (h : UInv cfg st) :
    ∀ ks : List Act, UInv cfg (ks.foldl (step cfg) st) := by
  intro ks
  induction ks generalizing st with
  | nil => exact h
  | cons a ks ih => exact ih (step cfg st a) (uinv_step cfg st a h)

theorem uinv_init (cfg : Config) : UInv cfg (init cfg) := by
  refine ⟨by simp [init], by simp [init], fun _ => rfl, ?_, ?_, ?_, ?_, ?_⟩ <;>
    simp [init, heldOf, qTasksOf]

theorem uinv_run (cfg : Config) (ks : List Act) : UInv cfg (runSched cfg ks) :=
  uinv_runFrom cfg (init cfg) (uinv_init cfg) ks

/-! ### Preservation of `NInv` -/

theorem ninv_stepProd (cfg : Config) (st : St) (h : NInv cfg st) :
    NInv cfg (stepProd cfg st) := by
  obtain ⟨n1, n2, n3, n4, n5⟩ := h
  obtain ⟨rp, cp, queue, eIdx, ss, yl, dl, sb, tr, sc, gsc, pc, ec⟩ := st
  dsimp only at n1 n2 n3 n4 n5 ⊢
  cases rp with
  | sendInit => exact ⟨n1, n2, n3, n4, n5⟩
  | checkEpoch =>
      cases hmx : cfg.maxEpoch with
      | some mx =>
        by_cases hge : eIdx ≥ mx
        · simp only [stepProd, hmx, if_pos hge]
          exact ⟨n1, n2, n3, n4, n5⟩
        · simp only [stepProd, hmx, if_neg hge]
          exact ⟨n1, n2, n3, n4, n5⟩
      | none =>
        simp only [stepProd, hmx]
        exact ⟨n1, n2, n3, n4, n5⟩
  | submitting rest =>
      cases rest with
      | nil => exact ⟨n1, n2, n3, n4, n5⟩
      | cons b brest => cases ss <;> exact ⟨n1, n2, n3, n4, n5⟩
  | putting b rest =>
      by_cases hlt : queue.length < cfg.cap
      · simp only [stepProd, if_pos hlt]
        refine ⟨n1, n2, n3, pref_app_right _ n4, ?_⟩
        rcases n5 with hfail | hchain
        · exact Or.inl hfail
        · refine Or.inr ?_
          simp only [qTasksOf, List.map_append, List.map_cons, List.map_nil]
          rw [← hchain]
          simp [qTasksOf]
      · simp only [stepProd, if_neg hlt]
        exact ⟨n1, n2, n3, n4, n5⟩
  | draining =>
      by_cases hq : queue.isEmpty
      · simp only [stepProd, if_pos hq]
        exact ⟨n1, n2, n3, n4, n5⟩
      · simp only [stepProd, if_neg hq]
        exact ⟨n1, n2, n3, n4, n5⟩
  | epochEndCall => exact ⟨n1, n2, n3, n4, n5⟩
  | sendSeq => exact ⟨n1, n2, n3, n4, n5⟩
  | incEpoch => exact ⟨n1, n2, n3, n4, n5⟩
  | exited => exact ⟨n1, n2, n3, n4, n5⟩
  | stopped => exact ⟨n1, n2, n3, n4, n5⟩

theorem ninv_stepCons (cfg : Config) (st : St) (h : NInv cfg st) :
    NInv cfg (stepCons cfg st) := by
  obtain ⟨n1, n2, n3, n4, n5⟩ := h
  obtain ⟨rp, cp, queue, eIdx, ss, yl, dl, sb, tr, sc, gsc, pc, ec⟩ := st
  dsimp only at n1 n2 n3 n4 n5 ⊢
  cases cp with
  | loopTop =>
      cases ss with
      | true =>
          obtain ⟨t, e, hte⟩ := n3 rfl
          exact absurd hte (by simp)
      | false =>
          simp only [stepCons]
          rw [if_neg Bool.false_ne_true]
          refine ⟨n1, by simp, by simp, n4, ?_⟩
          rcases n5 with ⟨t, e, hte⟩ | hchain
          · exact absurd hte (by simp)
          · exact Or.inr (by simpa [heldOf] using hchain)
  | dequeuing =>
      cases queue with
      | nil => exact ⟨n1, n2, n3, n4, n5⟩
      | cons f rest =>
        simp only [stepCons]
        refine ⟨n1, by simp, (fun hss => absurd (n3 hss) (by simp)), n4, ?_⟩
        rcases n5 with ⟨t, e, hte⟩ | hchain
        · exact absurd hte (by simp)
        · refine Or.inr ?_
          simp only [heldOf]
          simp only [heldOf, qTasksOf, List.map_cons] at hchain
          simpa [qTasksOf] using hchain
  | resolving f =>
      obtain ⟨t0, d⟩ := f
      cases d with
      | false => exact ⟨n1, n2, n3, n4, n5⟩
      | true =>
        have hchain : dl ++ [t0] ++ qTasksOf queue = sb := by
          rcases n5 with ⟨t, e, hte⟩ | hc
          · exact absurd hte (by simp)
          · simpa [heldOf] using hc
        cases hpr : cfg.produce t0.epoch t0.idx with
        | ok v =>
            simp only [stepCons, hpr, if_true]
            refine ⟨?_, by simp, (fun hss => absurd (n3 hss) (by simp)),
              ?_, ?_⟩
            · rw [yieldOf_append, n1]
              simp [yieldOf, hpr]
            · exact ⟨qTasksOf queue, hchain⟩
            · refine Or.inr ?_
              simpa [heldOf] using hchain
        | skip =>
            simp only [stepCons, hpr, if_true]
            refine ⟨?_, by simp, (fun hss => absurd (n3 hss) (by simp)),
              ?_, ?_⟩
            · rw [yieldOf_append, n1]
              simp [yieldOf, hpr]
            · exact ⟨qTasksOf queue, hchain⟩
            · refine Or.inr ?_
              simpa [heldOf] using hchain
        | fail e0 =>
            simp only [stepCons, hpr, if_true]
            refine ⟨n1, by simp, fun _ => ⟨t0, e0, Or.inl rfl⟩, ?_, ?_⟩
            · exact pref_trans (pref_app dl [t0]) ⟨qTasksOf queue, hchain⟩
            · exact Or.inl ⟨t0, e0, Or.inl rfl⟩
  | ended => exact absurd rfl n2
  | stopping t e =>
      simp only [stepCons]
      split
      · exact ⟨n1, n2, n3, n4, n5⟩
      · exact ⟨n1, by simp, fun _ => ⟨t, e, Or.inr rfl⟩, n4,
          Or.inl ⟨t, e, Or.inr rfl⟩⟩
  | failed t e => exact ⟨n1, n2, n3, n4, n5⟩

theorem ninv_step (cfg : Config) (st : St) (a : Act) (ha : a ≠ Act.extStop)
    (h : NInv cfg st) : NInv cfg (step cfg st a) := by
  cases a with
  | prod => exact ninv_stepProd cfg st h
  | cons => exact ninv_stepCons cfg st h
  | extStop => exact absurd rfl ha
  | complete i =>
      obtain ⟨n1, n2, n3, n4, n5⟩ := h
      obtain ⟨rp, cp, queue, eIdx, ss, yl, dl, sb, tr, sc, gsc, pc, ec⟩ := st
      dsimp only at n1 n2 n3 n4 n5 ⊢
      simp only [step]
      refine ⟨n1, n2, n3, n4, ?_⟩
      rcases n5 with hfail | hchain
      · exact Or.inl hfail
      · refine Or.inr ?_
        rw [← hchain]
        simp [qTasksOf, markDone_map_task]
  | completeHeld =>
      obtain ⟨n1, n2, n3, n4, n5⟩ := h
      obtain ⟨rp, cp, queue, eIdx, ss, yl, dl, sb, tr, sc, gsc, pc, ec⟩ := st
      dsimp only at n1 n2 n3 n4 n5 ⊢
      cases cp with
      | resolving f =>
          simp only [step]
          refine ⟨n1, by simp, (fun hss => absurd (n3 hss) (by simp)),
            n4, ?_⟩
          rcases n5 with ⟨t, e, hte⟩ | hchain
          · exact absurd hte (by simp)
          · exact Or.inr (by simpa [heldOf] using hchain)
      | loopTop => exact ⟨n1, n2, n3, n4, n5⟩
      | dequeuing => exact ⟨n1, n2, n3, n4, n5⟩
      | ended => exact ⟨n1, n2, n3, n4, n5⟩
      | stopping t e => exact ⟨n1, n2, n3, n4, n5⟩
      | failed t e => exact ⟨n1, n2, n3, n4, n5⟩

theorem ninv_runFrom (cfg : Config) (st : St) (h : NInv cfg st) :
    ∀ ks : List Act, noStop ks → NInv cfg (ks.foldl (step cfg) st) := by
  intro ks
  induction ks generalizing st with
  | nil => exact fun _ => h
  | cons a ks ih =>
      intro hns
      exact ih (step cfg st a)
        (ninv_step cfg st a (hns a (by simp)) h)
        (fun b hb => hns b (by simp [hb]))

theorem ninv_init (cfg : Config) : NInv cfg (init cfg) := by
  refine ⟨rfl, by simp [init], by simp [init], ⟨[], rfl⟩, Or.inr ?_⟩
  simp [init, heldOf, qTasksOf]

theorem ninv_run (cfg : Config) (ks : List Act) (hns : noStop ks) :
    NInv cfg (runSched cfg ks) :=
  ninv_runFrom cfg (init cfg) (ninv_init cfg) ks hns

/-! ### Derived facts -/

theorem take_pref {α : Type} (l : List α) (n : Nat) : l.take n <+: l :=
  ⟨l.drop n, List.take_append_drop n l⟩

theorem app_pref_app {α : Type} (l : List α) {a b : List α} (h : a <+: b) :
    l ++ a <+: l ++ b := by
  obtain ⟨t, rfl⟩ := h
  exact ⟨t, by simp⟩

/-- Every reachable `submitted` list is a prefix of the canonical
submission-order stream. -/
theorem submitted_pref_canon (cfg : Config) (st : St) (h : Geom cfg st) :
    ∃ m, st.submitted <+: canonEpochs cfg m := by
  obtain ⟨m, r, hei, hsub, _, _, _, _, _⟩ := h
  refine ⟨m + 1, ?_⟩
  rw [hsub, hei]
  exact app_pref_app _ (take_pref _ _)

/-- Schedules built only from stop-free actions avoid `Act.extStop`. -/
theorem nsRun_noStop (ks : List NAct) : noStop (ks.map NAct.toAct) := by
  intro a ha
  obtain ⟨b, _, rfl⟩ := List.mem_map.mp ha
  cases b <;> simp [NAct.toAct]

theorem ninv_ns (cfg : Config) (ks : List NAct) : NInv cfg (nsRun cfg ks) :=
  ninv_run cfg (ks.map NAct.toAct) (nsRun_noStop ks)

theorem uinv_ns (cfg : Config) (ks : List NAct) : UInv cfg (nsRun cfg ks) :=
  uinv_run cfg (ks.map NAct.toAct)

theorem geom_ns (cfg : Config) (ks : List NAct) : Geom cfg (nsRun cfg ks) :=
  geom_run cfg (ks.map NAct.toAct)

/-- Without an external `stop()` and with a work source that never raises,
`is_running()` stays true. -/
theorem nsRun_isRunning (cfg : Config) (ks : List NAct)
    (hok : ∀ e b ex, cfg.produce e b ≠ PResult.fail ex) :
    isRunning (nsRun cfg ks) = true := by
  obtain ⟨_, _, n3, _, _⟩ := ninv_ns cfg ks
  obtain ⟨_, _, _, _, _, _, h6, _⟩ := uinv_ns cfg ks
  cases hss : (nsRun cfg ks).stopSignal with
  | false => simp [isRunning, hss]
  | true =>
      obtain ⟨t, e, hte⟩ := n3 hss
      exact absurd (h6 t e hte).2.2.1 (hok t.epoch t.idx e)

/-- When a maximum epoch count `M` is configured, at most `M - e0` epochs
are ever submitted. -/
theorem submitted_pref_max (cfg : Config) (ks : List Act) (M : Nat)
    (hM : cfg.maxEpoch = some M) :
    (runSched cfg ks).submitted <+: canonEpochs cfg (M - cfg.e0) := by
  obtain ⟨m, r, hei, hsub, _, _, _, hact0, hrest⟩ := geom_run cfg ks
  have hm0 : m ≤ M - cfg.e0 := by
    rcases hact0 with rfl | hact
    · omega
    · simp only [activeBound, hM] at hact
      omega
  have hroute1 : activeBound cfg (runSched cfg ks).eIdx →
      (runSched cfg ks).submitted <+: canonEpochs cfg (M - cfg.e0) := by
    intro hact
    simp only [activeBound, hM, hei] at hact
    have h1 : (runSched cfg ks).submitted <+: canonEpochs cfg (m + 1) := by
      rw [hsub, hei]
      exact app_pref_app _ (take_pref _ _)
    exact pref_trans h1 (canonEpochs_pref_mono cfg (by omega))
  have hroute0 : r = 0 →
      (runSched cfg ks).submitted <+: canonEpochs cfg (M - cfg.e0) := by
    intro hr
    subst hr
    rw [hsub]
    simp only [List.take_zero, List.append_nil]
    exact canonEpochs_pref_mono cfg hm0
  cases hrp : (runSched cfg ks).rp <;> rw [hrp] at hrest <;>
    simp only [RestOk] at hrest
  · exact hroute0 hrest.2
  · exact hroute0 hrest
  · exact hroute1 hrest.2
  · exact hroute1 hrest.2
  · exact hroute1 hrest.2
  · exact hroute1 hrest.2
  · exact hroute1 hrest.2
  · exact hroute1 hrest.2
  · exact hroute0 hrest
  · exact hroute1 hrest.2

/-- `get()`'s generator makes no further step once it has terminated with a
failure: the failure is delivered exactly once, as the terminal event. -/
theorem stepCons_failed (cfg : Config) (st : St) (t : Task) (e : Nat)
    (h : st.cp = CPhase.failed t e) : stepCons cfg st = st := by
  obtain ⟨rp, cp, queue, eIdx, ss, yl, dl, sb, tr, sc, gsc, pc, ec⟩ := st
  dsimp only at h
  subst h
  rfl

/-- While the run thread is alive, the handler blocks in
`run_thread.join(None)`; once the run thread has exited, the join returns
and `raise StopIteration(e)` ends the generator with the failure. -/
theorem stepCons_stopping_done (cfg : Config) (st : St) (t : Task) (e : Nat)
    (h : st.cp = CPhase.stopping t e) (h2 : runThreadAlive st = false) :
    (stepCons cfg st).cp = CPhase.failed t e := by
  obtain ⟨rp, cp, queue, eIdx, ss, yl, dl, sb, tr, sc, gsc, pc, ec⟩ := st
  dsimp only at h h2 ⊢
  subst h
  simp [stepCons, h2]

/-- The deadlocked shape is preserved by every stop-free action: the drain
spin re-tests a non-empty queue, a completion keeps the queue non-empty,
and the consumer is blocked in the join. -/
theorem stuck_step (cfg : Config) (st : St) (a : NAct)
    (h : stuckInStop st = true) :
    stuckInStop (step cfg st (NAct.toAct a)) = true := by
  obtain ⟨rp, cp, queue, eIdx, ss, yl, dl, sb, tr, sc, gsc, pc, ec⟩ := st
  cases rp <;> cases cp <;> simp only [stuckInStop] at h <;>
    try exact Bool.noConfusion h
  cases a with
  | prod =>
      simp only [NAct.toAct, step, stepProd]
      rw [if_neg (by simp_all)]
      exact h
  | complete i =>
      simpa only [NAct.toAct, step, stuckInStop, isEmpty_markDone] using h
  | completeHeld => exact h
  | cons =>
      simp only [NAct.toAct, step, stepCons, runThreadAlive, if_pos rfl]
      exact h

/-- The deadlocked shape persists along every stop-free interleaving. -/
theorem stuck_run (cfg : Config) (st : St) (ks : List NAct)
    (h : stuckInStop st = true) :
    stuckInStop ((ks.map NAct.toAct).foldl (step cfg) st) = true := by
  induction ks generalizing st with
  | nil => exact h
  | cons a rest ih => exact ih (step cfg st (NAct.toAct a)) (stuck_step cfg st a h)

/-- In the deadlocked shape the consumer is inside `run_thread.join(None)`. -/
theorem stuck_cp (st : St) (h : stuckInStop st = true) :
    ∃ t e, st.cp = CPhase.stopping t e := by
  unfold stuckInStop at h
  split at h
  · next t e _ _ => exact ⟨t, e, by assumption⟩
  · exact absurd h (by simp)

/-- From the deadlocked shape, under every stop-free interleaving the
generator never raises and never ends: the sequence never terminates. -/
theorem stuck_never_terminates (cfg : Config) (st : St)
    (h : stuckInStop st = true) : SeqNeverTerminates cfg st := by
  intro ks
  obtain ⟨t, e, hcp⟩ := stuck_cp _ (stuck_run cfg st ks h)
  rw [hcp]
  exact ⟨fun t2 e2 h2 => CPhase.noConfusion h2, fun h2 => CPhase.noConfusion h2⟩

/-- A state fixed by the scheduling thread's step stays fixed forever. -/
theorem prodIter_fixed (cfg : Config) (st : St) (h : stepProd cfg st = st) :
    ∀ n, prodIter cfg n st = st := by
  intro n
  induction n with
  | zero => rfl
  | succ n ih => simp only [prodIter, h]; exact ih

/-! ### GeneratorEnqueuer invariant -/

theorem ch_set_hold (ws : List GWPhase) (i : Nat) (v : Nat)
    (h : ws[i]? = some GWPhase.atCheck) :
    countHolding (ws.set i (GWPhase.holding v)) = countHolding ws + 1 := by
  induction ws generalizing i with
  | nil => simp at h
  | cons x rest ih =>
    cases i with
    | zero =>
        simp only [List.getElem?_cons_zero, Option.some.injEq] at h
        subst h
        simp [List.set, countHolding, List.filter_cons, isHolding]
    | succ i =>
        simp only [List.getElem?_cons_succ] at h
        simp only [List.set, countHolding, List.filter_cons]
        cases hx : isHolding x <;>
          simp only [if_true, if_false, List.length_cons, Bool.false_eq_true,
            if_neg, hx] <;>
          simp [countHolding] at ih ⊢ <;> simp [ih i h]

theorem ch_lt_len (ws : List GWPhase) (i : Nat)
    (h : ws[i]? = some GWPhase.atCheck) : countHolding ws < ws.length := by
  induction ws generalizing i with
  | nil => simp at h
  | cons x rest ih =>
    have hle : countHolding rest ≤ rest.length := List.length_filter_le _ _
    cases i with
    | zero =>
        simp only [List.getElem?_cons_zero, Option.some.injEq] at h
        subst h
        simp only [countHolding, List.filter_cons, isHolding]
        simpa [countHolding] using Nat.lt_succ_of_le hle
    | succ i =>
        simp only [List.getElem?_cons_succ] at h
        have := ih i h
        simp only [countHolding, List.filter_cons, List.length_cons]
        cases hx : isHolding x <;> simp [countHolding] at this ⊢ <;> omega

theorem ch_set_back (ws : List GWPhase) (i : Nat) (v : Nat)
    (h : ws[i]? = some (GWPhase.holding v)) :
    countHolding (ws.set i GWPhase.atCheck) + 1 = countHolding ws := by
  induction ws generalizing i with
  | nil => simp at h
  | cons x rest ih =>
    cases i with
    | zero =>
        simp only [List.getElem?_cons_zero, Option.some.injEq] at h
        subst h
        simp [List.set, countHolding, List.filter_cons, isHolding]
    | succ i =>
        simp only [List.getElem?_cons_succ] at h
        have hih := ih i h
        simp only [countHolding] at hih
        simp only [List.set, countHolding, List.filter_cons]
        cases hx : isHolding x <;> simp [hx] <;> omega

theorem ginv_step (maxq w : Nat) (st : GenSt) (a : GAct) (h : GInv maxq w st) :
    GInv maxq w (gstep maxq st a) := by
  obtain ⟨hw, hb, hp⟩ := h
  obtain ⟨q, ws, nv, yl, pts, ss⟩ := st
  dsimp only at hw hb hp ⊢
  cases a with
  | gcheck i =>
      cases ss with
      | true => exact ⟨hw, hb, hp⟩
      | false =>
        simp only [gstep]
        rw [if_neg Bool.false_ne_true]
        cases hwi : ws[i]? with
        | none => exact ⟨hw, hb, hp⟩
        | some ph =>
          cases ph with
          | holding v => exact ⟨hw, hb, hp⟩
          | atCheck =>
            by_cases hlt : q.length < maxq
            · simp only [if_pos hlt]
              refine ⟨by simp [hw], ?_, hp⟩
              show q.length + countHolding (ws.set i (GWPhase.holding nv)) ≤
                (maxq - 1) + w
              rw [ch_set_hold ws i nv hwi]
              have hcl := ch_lt_len ws i hwi
              omega
            · simp only [if_neg hlt]
              exact ⟨hw, hb, hp⟩
  | gput i =>
      cases hwi : ws[i]? with
      | none => simp only [gstep, hwi]; exact ⟨hw, hb, hp⟩
      | some ph =>
        cases ph with
        | atCheck => simp only [gstep, hwi]; exact ⟨hw, hb, hp⟩
        | holding v =>
          simp only [gstep, hwi]
          refine ⟨by simp [hw], ?_, ?_⟩
          · show (q ++ [v]).length + countHolding (ws.set i GWPhase.atCheck) ≤
              (maxq - 1) + w
            have := ch_set_back ws i v hwi
            simp only [List.length_append, List.length_cons, List.length_nil]
            omega
          · show yl ++ (q ++ [v]) = pts ++ [v]
            rw [← hp]
            simp
  | gget =>
      cases ss with
      | true => exact ⟨hw, hb, hp⟩
      | false =>
        simp only [gstep]
        rw [if_neg Bool.false_ne_true]
        cases q with
        | nil => exact ⟨hw, hb, hp⟩
        | cons x rest =>
          refine ⟨hw, ?_, ?_⟩
          · show rest.length + countHolding ws ≤ (maxq - 1) + w
            simp only [List.length_cons] at hb
            omega
          · show (yl ++ [x]) ++ rest = pts
            rw [← hp]
            simp

/-- Run-level GeneratorEnqueuer invariant. -/
theorem ginv_run (maxq w : Nat) (ks : List GAct) :
    GInv maxq w (runGen maxq w ks) := by
  have hinit : GInv maxq w (ginit w) := by
    have hf : List.filter isHolding (List.replicate w GWPhase.atCheck) = [] := by
      rw [List.filter_eq_nil_iff]
      intro a ha
      rw [List.eq_of_mem_replicate ha]
      simp [isHolding]
    refine ⟨by simp [ginit], ?_, by simp [ginit]⟩
    simp [ginit, countHolding, hf]
  have hstep : ∀ st : GenSt, GInv maxq w st →
      ∀ ks : List GAct, GInv maxq w (ks.foldl (gstep maxq) st) := by
    intro st h ks
    induction ks generalizing st with
    | nil => exact h
    | cons a ks ih => exact ih (gstep maxq st a) (ginv_step maxq w st a h)
  exact hstep (ginit w) hinit ks

/-! ### The claims -/

/-- C1: for `OrderedEnqueuer`, within any single epoch, the lazy sequence
produced by `get()` yields the work items in exactly the order their indices
were submitted by the scheduling loop (the epoch's permutation order),
regardless of the order in which the pool tasks complete.  Formally: under
every stop-free interleaving (which includes every completion order, via the
`complete` actions), the resolved tasks are a prefix of the canonical
submission-order stream `canonEpochs` — epoch by epoch, in `perm` order —
and the yielded values are exactly the `yieldOf` image of that prefix.  The
FIFO queue of futures and head-of-queue resolution make this hold no matter
when each future completes. -/
theorem C1_ordered_get_yields_in_submission_order (cfg : Config)
    (ks : List NAct) :
    ∃ m, (nsRun cfg ks).delivered <+: canonEpochs cfg m ∧
      (nsRun cfg ks).yielded = yieldOf cfg (nsRun cfg ks).delivered := by
  obtain ⟨n1, _, _, n4, _⟩ := ninv_ns cfg ks
  obtain ⟨m, hm⟩ := submitted_pref_canon cfg (nsRun cfg ks) (geom_ns cfg ks)
  exact ⟨m, pref_trans n4 hm, n1⟩

/-- C2 (counterexample): the claim says that after the tenth item "the
sequence ends", but under no stop-free interleaving of the C2 scenario does
`get()`'s generator ever reach its exhausted state: the scheduling loop's
normal `break` on `max_epoch` never sets the stop signal, so
`is_running()` stays true and `get()` blocks in `queue.get` instead of
terminating. -/
theorem C2_sequence_never_ends :
    (runSched cfg2 ks2).yielded = [0, 1, 2, 3, 4, 10, 11, 12, 13, 14] ∧
    SeqNeverEnds cfg2 (init cfg2) :=
  ⟨by decide, fun ks => (ninv_ns cfg2 ks).2.1⟩

/-- C2 (amended): in the scenario (length 5, workers 2, queue capacity 2, no
shuffle, initial epoch 0, max epoch 2), the exhibited complete interleaving
yields exactly the items of indices `[0,1,2,3,4,0,1,2,3,4]` in that order,
with `on_epoch_end()` invoked exactly once between the delivery of index 4
of epoch 0 and index 0 of epoch 1, and the scheduling loop then exits; and
under EVERY stop-free interleaving the yields are a prefix of those ten
items, but the sequence does not end — `get()`'s generator never terminates
(`is_running()` still reports true), a consumer merely blocks. -/
theorem C2_scenario_two_epochs :
    ((runSched cfg2 ks2).yielded = [0, 1, 2, 3, 4, 10, 11, 12, 13, 14] ∧
     edEvents (runSched cfg2 ks2).trace =
       [Event.deliver ⟨0, 0⟩, Event.deliver ⟨0, 1⟩, Event.deliver ⟨0, 2⟩,
        Event.deliver ⟨0, 3⟩, Event.deliver ⟨0, 4⟩, Event.epochEnd 0,
        Event.deliver ⟨1, 0⟩, Event.deliver ⟨1, 1⟩, Event.deliver ⟨1, 2⟩,
        Event.deliver ⟨1, 3⟩, Event.deliver ⟨1, 4⟩, Event.epochEnd 1] ∧
     (runSched cfg2 ks2).rp = RPhase.exited) ∧
    (∀ ks : List NAct,
      (nsRun cfg2 ks).yielded <+: [0, 1, 2, 3, 4, 10, 11, 12, 13, 14] ∧
      (nsRun cfg2 ks).cp ≠ CPhase.ended ∧
      isRunning (nsRun cfg2 ks) = true) := by
  constructor
  · exact ⟨by decide, by decide, by decide⟩
  · intro ks
    obtain ⟨n1, n2, _, n4, _⟩ := ninv_ns cfg2 ks
    refine ⟨?_, n2, nsRun_isRunning cfg2 ks (by intro e b ex; simp [cfg2])⟩
    have hmax := submitted_pref_max cfg2 (ks.map NAct.toAct) 2 rfl
    have hdel : (nsRun cfg2 ks).delivered <+:
        canonEpochs cfg2 (2 - cfg2.e0) := pref_trans n4 hmax
    have hy : yieldOf cfg2 (canonEpochs cfg2 (2 - cfg2.e0)) =
        [0, 1, 2, 3, 4, 10, 11, 12, 13, 14] := by decide
    rw [n1, ← hy]
    exact yieldOf_pref_mono cfg2 hdel

/-- C3 (counterexample): calling `OrderedEnqueuer.stop()` on an instance on
which `start()` was never called is NOT a no-op: `stop()`'s first statement
is `self.stop_signal.set()`, and `__init__` left `stop_signal = None`, so it
raises `AttributeError`. -/
theorem C3_ordered_stop_before_start_raises :
    OrderedObj.stopO OrderedObj.new = Except.error PyErr.attributeError := rfl

/-- C3 (amended): for `GeneratorEnqueuer`, `stop()` before `start()` and
`stop()` twice in a row complete without error (its `is_running()` guard
tolerates the unset event, and it always resets to the fresh state); for
`OrderedEnqueuer`, `stop()` after `start()` succeeds and a second `stop()`
also succeeds (the pool's `close()` is idempotent) — but `stop()` before
`start()` raises, as the counterexample shows. -/
theorem C3_stop_idempotent_amended :
    (∀ g : GenObj, GenObj.stopG g = Except.ok GenObj.new ∧
       GenObj.stopG GenObj.new = Except.ok GenObj.new) ∧
    (∀ o : OrderedObj, ∀ cap : Nat, ∃ o1 o2 : OrderedObj,
       OrderedObj.stopO (OrderedObj.startO o cap) = Except.ok o1 ∧
       OrderedObj.stopO o1 = Except.ok o2) := by
  constructor
  · intro g
    obtain ⟨se, th, qa⟩ := g
    cases se with
    | none => exact ⟨rfl, rfl⟩
    | some b => cases b <;> exact ⟨rfl, rfl⟩
  · intro o cap
    exact ⟨_, _, rfl, rfl⟩

/-- C4 (counterexample): the lazy sequence does NOT always terminate
carrying the failure.  In `cfgF2` the failure of index 0 is resolved while
the scheduler is blocked putting the epoch's final index: the handler's
`stop()` force-clears the queue and wakes the blocked `put`, the woken
`put` refills the queue, and the scheduler then spins forever in
`while not self.queue.empty(): pass` — so `run_thread.join(None)` inside
`stop()` never returns, and under every continuation the generator neither
raises the `StopIteration` carrying the failure nor ends.  `stop()` was
still entered (exactly once) from the handler. -/
theorem C4_failure_never_raised :
    (runSched cfgF2 ksF2).getStopCount = 1 ∧
    (runSched cfgF2 ksF2).cp = CPhase.stopping ⟨0, 0⟩ 7 ∧
    SeqNeverTerminates cfgF2 (runSched cfgF2 ksF2) :=
  ⟨by decide, by decide,
   stuck_never_terminates cfgF2 (runSched cfgF2 ksF2) (by decide)⟩

/-- C4 (amended): when resolving a future inside `get()` raises, the
handler calls `stop()` exactly once, `is_running()` is false from then on,
and the exception is exactly the `produce` failure of a submitted task;
the handler is then blocked in `stop()`'s `run_thread.join(None)`.  If the
run thread exits, the join returns and the generator terminates with that
failure, making no further step; but while the run thread stays alive (as
in the refilled-queue deadlock of the counterexample) the join blocks and
the `StopIteration(e)` is never raised. -/
theorem C4_failure_propagation_amended (cfg : Config) (ks : List Act)
    (t : Task) (e : Nat)
    (h : (runSched cfg ks).cp = CPhase.stopping t e ∨
         (runSched cfg ks).cp = CPhase.failed t e) :
    isRunning (runSched cfg ks) = false ∧
    (runSched cfg ks).getStopCount = 1 ∧
    cfg.produce t.epoch t.idx = PResult.fail e ∧
    t ∈ (runSched cfg ks).submitted ∧
    ((runSched cfg ks).cp = CPhase.failed t e →
      stepCons cfg (runSched cfg ks) = runSched cfg ks) ∧
    ((runSched cfg ks).cp = CPhase.stopping t e →
      runThreadAlive (runSched cfg ks) = false →
      (stepCons cfg (runSched cfg ks)).cp = CPhase.failed t e) := by
  obtain ⟨_, _, _, _, _, _, h6, _⟩ := uinv_run cfg ks
  obtain ⟨ha, hb, hc, hd⟩ := h6 t e h
  exact ⟨by simp [isRunning, ha], hb, hc, hd,
    fun hf => stepCons_failed cfg (runSched cfg ks) t e hf,
    fun hs h2 => stepCons_stopping_done cfg (runSched cfg ks) t e hs h2⟩

/-- C4 witness: in `cfgFail` the run thread finishes its epoch and exits
after the failure, so the handler's join returns and the consumer's next
step raises the `StopIteration` carrying exception 7. -/
theorem C4_failure_propagation_witness :
    ((runSched cfgFail ksFail2).cp = CPhase.stopping ⟨0, 0⟩ 7 ∨
     (runSched cfgFail ksFail2).cp = CPhase.failed ⟨0, 0⟩ 7) ∧
    (isRunning (runSched cfgFail ksFail2) = false ∧
     (runSched cfgFail ksFail2).getStopCount = 1 ∧
     cfgFail.produce 0 0 = PResult.fail 7 ∧
     (⟨0, 0⟩ : Task) ∈ (runSched cfgFail ksFail2).submitted ∧
     ((runSched cfgFail ksFail2).cp = CPhase.failed ⟨0, 0⟩ 7 →
       stepCons cfgFail (runSched cfgFail ksFail2) =
         runSched cfgFail ksFail2) ∧
     ((runSched cfgFail ksFail2).cp = CPhase.stopping ⟨0, 0⟩ 7 →
       runThreadAlive (runSched cfgFail ksFail2) = false →
       (stepCons cfgFail (runSched cfgFail ksFail2)).cp =
         CPhase.failed ⟨0, 0⟩ 7)) :=
  ⟨Or.inr (by decide),
   C4_failure_propagation_amended cfgFail ksFail2 ⟨0, 0⟩ 7
     (Or.inr (by decide))⟩

/-- C5 (counterexample): for `GeneratorEnqueuer` with the thread strategy,
the queue can exceed the configured capacity: the queue itself is unbounded
(`queue.Queue()` with no maxsize) and the `qsize() < max_queue_size` check
and the `put` are separate statements, so with capacity 1 and two workers
both can pass the check and both put — the queue then holds 2 > 1 items. -/
theorem C5_generator_queue_exceeds_capacity :
    (runGen 1 2 [GAct.gcheck 0, GAct.gcheck 1, GAct.gput 0,
        GAct.gput 1]).gqueue.length = 2 ∧
    ¬ ((runGen 1 2 [GAct.gcheck 0, GAct.gcheck 1, GAct.gput 0,
        GAct.gput 1]).gqueue.length ≤ 1) := by decide

/-- C5 (amended): for `OrderedEnqueuer` the bounded queue never exceeds its
capacity `C` under any interleaving and any worker count, and `get` never
returns more items than were put (`delivered ≤ submitted`).  For
`GeneratorEnqueuer` (thread strategy) the bound `C` can be exceeded, but by
at most the worker count: at most `C - 1 + W` items are in the queue at any
time; and no item is ever dropped — the yields followed by the queue
contents are exactly the puts, in order. -/
theorem C5_queue_bounds_amended :
    (∀ cfg : Config, ∀ ks : List Act,
       (runSched cfg ks).queue.length ≤ cfg.cap ∧
       (runSched cfg ks).delivered.length ≤
         (runSched cfg ks).submitted.length) ∧
    (∀ maxq w : Nat, ∀ ks : List GAct,
       (runGen maxq w ks).gqueue.length ≤ (maxq - 1) + w ∧
       (runGen maxq w ks).gyielded ++ (runGen maxq w ks).gqueue =
         (runGen maxq w ks).puts) := by
  constructor
  · intro cfg ks
    obtain ⟨h1, _, _, _, _, h5, _, _⟩ := uinv_run cfg ks
    exact ⟨h1, by omega⟩
  · intro maxq w ks
    obtain ⟨_, hb, hp⟩ := ginv_run maxq w ks
    exact ⟨by omega, hp⟩

/-- C6: at most one epoch's worth of tasks is in flight at any time — in
every reachable state, all futures in the queue belong to one epoch; while
the scheduling thread is at the barrier (`on_epoch_end`, the re-publication
or the epoch increment) the queue is empty, so no index of epoch `N+1` is
submitted before epoch `N`'s queue has fully drained; and the producer
events of the trace always form a prefix of the canonical stream
`prodTraceCanon`, in which each epoch's submits are followed by
`epochEnd e`, then `publish e`, then `inc (e+1)` — on_epoch_end,
re-publication and the epoch increment, in that order. -/
theorem C6_epoch_barrier (cfg : Config) (ks : List Act) :
    (∀ f ∈ (runSched cfg ks).queue, ∀ g ∈ (runSched cfg ks).queue,
       f.task.epoch = g.task.epoch) ∧
    ((runSched cfg ks).rp = RPhase.epochEndCall ∨
     (runSched cfg ks).rp = RPhase.sendSeq ∨
     (runSched cfg ks).rp = RPhase.incEpoch → (runSched cfg ks).queue = []) ∧
    (∃ m r, (runSched cfg ks).eIdx = cfg.e0 + m ∧
       (runSched cfg ks).trace.filter isProdEvent =
         prodTraceCanon cfg (runSched cfg ks).rp (runSched cfg ks).eIdx
           m r) := by
  obtain ⟨_, h2, h3, _, _, _, _, _⟩ := uinv_run cfg ks
  obtain ⟨m, r, hei, _, _, _, htr, _, _⟩ := geom_run cfg ks
  refine ⟨fun f hf g hg => by rw [h2 f hf, h2 g hg], ?_, ⟨m, r, hei, htr⟩⟩
  intro hd
  apply h3
  rcases hd with h | h | h <;> simp [barrierPhase, h]

/-- C7: the claim says the registry ack barrier is bounded by a timeout, but
`_send_sequence`'s while-loop has no timeout at all: if one of two expected
worker processes never runs `_update_sequence` (the pool always schedules
the `apply` on pid 0), the loop condition `len(shared) < workers` stays true
after every number of iterations — the scheduler hangs forever instead of
warning and proceeding. -/
theorem C7_ack_loop_never_terminates :
    ∀ n : Nat, (ackIter 2 (fun _ => 0) n).length < 2 := by
  have key : ∀ n, ackIter 2 (fun _ => 0) n = [] ∨
      ackIter 2 (fun _ => 0) n = [0] := by
    intro n
    induction n with
    | zero => exact Or.inl rfl
    | succ n ih => rcases ih with h | h <;> simp [ackIter, h, applySeqUpdate]
  intro n
  rcases key n with h | h <;> simp [h]

/-- C8 (counterexample): in the scenario where `stop()` is called while the
scheduling loop is blocked on a `put` of the epoch's final index into a full
queue, `stop()` completes (`stopCount = 1`) but the run thread remains alive
afterward, stuck in the epoch-drain spin: the woken `put` re-filled the
force-cleared queue, no consumer drains it, and the spin step is a no-op
fixpoint. -/
theorem C8_run_thread_alive_after_stop :
    (runSched cfg8 ks8).stopCount = 1 ∧
    runThreadAlive (runSched cfg8 ks8) = true ∧
    stepProd cfg8 (runSched cfg8 ks8) = runSched cfg8 ks8 :=
  ⟨by decide, by decide, by decide⟩

/-- C8 (amended): the force-clear in `stop()` does wake the producer blocked
on `put` (before the stop its step is a stutter; after the stop it completes
the put and moves on) and `stop()` returns; but the claim's "no worker
thread remains alive afterward" fails: when the woken put was the epoch's
final index, the scheduling thread enters `while not self.queue.empty():
pass` with the queue non-empty and spins there forever — and blocked `get`
callers are never woken at all, since `stop()` notifies only `not_full`. -/
theorem C8_stop_wakes_put_amended :
    ((runSched cfg8 ks8pre).rp = RPhase.putting 1 [] ∧
     stepProd cfg8 (runSched cfg8 ks8pre) = runSched cfg8 ks8pre) ∧
    ((runSched cfg8 (ks8pre ++ [Act.extStop, Act.prod])).rp =
       RPhase.submitting [] ∧
     (runSched cfg8 ks8).stopCount = 1) ∧
    (∀ n : Nat,
      (prodIter cfg8 n (runSched cfg8 ks8)).rp = RPhase.draining) := by
  refine ⟨⟨by decide, by decide⟩, ⟨by decide, by decide⟩, ?_⟩
  intro n
  rw [prodIter_fixed cfg8 (runSched cfg8 ks8) (by decide) n]
  decide

/-- C9: on a freshly constructed instance, before `start()` was ever called,
`is_running()` returns false for both enqueuer variants and raises no error:
both implementations first test the signal attribute against `None`
(`self.stop_signal is not None and ...`), so the unset signal is treated as
not-running rather than as an exceptional state (the model's total functions
mirror exactly the attribute accesses the Python code performs). -/
theorem C9_is_running_before_start :
    OrderedObj.isRunningO OrderedObj.new = false ∧
    GenObj.isRunningG GenObj.new = false := ⟨rfl, rfl⟩

/-- C10: for `OrderedEnqueuer` with `max_epoch ≤ initial_epoch`, under every
stop-free interleaving the run publishes the work source at most once
(exactly once when the loop has exited), submits zero tasks, never invokes
`on_epoch_end()`, and `is_running()` still reports true after the loop has
exited — the loop's normal termination does not set the stop signal. -/
theorem C10_zero_epoch_run (cfg : Config) (ks : List NAct) (M : Nat)
    (h1 : cfg.maxEpoch = some M) (h2 : M ≤ cfg.e0) :
    (nsRun cfg ks).submitted = [] ∧
    (nsRun cfg ks).epochEndCount = 0 ∧
    (nsRun cfg ks).publishCount ≤ 1 ∧
    isRunning (nsRun cfg ks) = true ∧
    ((nsRun cfg ks).rp = RPhase.exited →
      (nsRun cfg ks).publishCount = 1) := by
  obtain ⟨m, r, hei, hsub, heec, hpub, _, hact0, hrest⟩ := geom_ns cfg ks
  have hm : m = 0 := by
    rcases hact0 with h | h
    · exact h
    · simp only [activeBound, h1] at h
      omega
  subst hm
  have hnoact : ¬ activeBound cfg (nsRun cfg ks).eIdx := by
    simp only [activeBound, h1, hei]
    omega
  have hphase3 : (nsRun cfg ks).rp = RPhase.sendInit ∨
      (nsRun cfg ks).rp = RPhase.checkEpoch ∨
      (nsRun cfg ks).rp = RPhase.exited := by
    cases hrp : (nsRun cfg ks).rp <;> rw [hrp] at hrest <;>
      simp only [RestOk] at hrest
    · exact Or.inl rfl
    · exact Or.inr (Or.inl rfl)
    · exact absurd hrest.2 hnoact
    · exact absurd hrest.2 hnoact
    · exact absurd hrest.2 hnoact
    · exact absurd hrest.2 hnoact
    · exact absurd hrest.2 hnoact
    · exact absurd hrest.2 hnoact
    · exact Or.inr (Or.inr rfl)
    · exact absurd hrest.2 hnoact
  have hr0 : r = 0 := by
    rcases hphase3 with h | h | h <;> rw [h] at hrest <;>
      simp only [RestOk] at hrest
    · exact hrest.2
    · exact hrest
    · exact hrest
  subst hr0
  have hsubnil : (nsRun cfg ks).submitted = [] := by
    simpa [canonEpochs] using hsub
  have hrun : isRunning (nsRun cfg ks) = true := by
    obtain ⟨_, _, n3, _, _⟩ := ninv_ns cfg ks
    obtain ⟨_, _, _, _, _, _, h6, _⟩ := uinv_ns cfg ks
    cases hss : (nsRun cfg ks).stopSignal with
    | false => simp [isRunning, hss]
    | true =>
        obtain ⟨t, e, hte⟩ := n3 hss
        have hmem := (h6 t e hte).2.2.2
        rw [hsubnil] at hmem
        simp at hmem
  refine ⟨hsubnil, ?_, ?_, hrun, ?_⟩
  · rcases hphase3 with h | h | h <;> rw [h] at heec <;>
      simpa [eecOf] using heec
  · rcases hphase3 with h | h | h <;> rw [h] at hpub <;>
      simp [pubOf] at hpub <;> omega
  · intro hex
    rw [hex] at hpub
    simpa [pubOf] using hpub

/-- C10 witness: `initial_epoch = 5`, `max_epoch = 3`, two scheduler steps
reach the exit. -/
theorem C10_zero_epoch_run_witness :
    cfg10.maxEpoch = some 3 ∧ 3 ≤ cfg10.e0 ∧
    ((nsRun cfg10 [NAct.prod, NAct.prod]).submitted = [] ∧
     (nsRun cfg10 [NAct.prod, NAct.prod]).epochEndCount = 0 ∧
     (nsRun cfg10 [NAct.prod, NAct.prod]).publishCount ≤ 1 ∧
     isRunning (nsRun cfg10 [NAct.prod, NAct.prod]) = true ∧
     ((nsRun cfg10 [NAct.prod, NAct.prod]).rp = RPhase.exited →
       (nsRun cfg10 [NAct.prod, NAct.prod]).publishCount = 1)) :=
  ⟨rfl, by decide,
    C10_zero_epoch_run cfg10 [NAct.prod, NAct.prod] 3 rfl (by decide)⟩

end DU
